import Mathlib

/-
  Verification development for the cppx splitter (cppxgen).

  The C++ sources embedded here:
    - parser.h   : class cppx::Parser (lexer producing CodeBlocks)
    - cppxgen.cpp: CodeGuardNamespaces / CodeGuardIdentifier / CodeWriter /
                   GenerateFileCode (splitter/emitter)

  The input buffer is modelled as a `List Char`; block byte ranges are
  inclusive `[beg, fin]` index pairs into that list, exactly as the C++
  CodeBlock stores `begin`/`end` pointers into the mapped file.
-/

namespace Cppx

/-- Parser::CodeBlock::Type from parser.h. -/
inductive BKind where
  | none
  | empty
  | comment
  | directive
  | char_literal
  | string_literal
  | identifier
  | access_modifier
  | namespace_keyword
  | class_keyword
  | struct_keyword
  | enumeration
  | arguments_or_parameters
  | function_name
  | constructor_destructor
  | initialization_list
  | begin_group
  | end_group
  | statement_terminator
  | identifier_scope
  | previous_type
  | other
  deriving DecidableEq, Repr

/-- Parser::Container::Type from parser.h. -/
inductive CKind where
  | none
  | namespace_container
  | class_container
  | struct_container
  | enumeration
  | function
  | constructor_destructor
  | initialization_list
  deriving DecidableEq, Repr

/-- Parser::CodeBlock: a tagged inclusive byte range `[beg, fin]` into the buffer
(`begin`/`end` pointers in the C++). -/
structure Block where
  type : BKind
  beg : Nat
  fin : Nat
  deriving DecidableEq, Repr

/-- Parser::Container: a stack frame for an open syntactic construct.
`braces`/`parenthesis` are `size_t` in C++; we use `Int` so that the emitter's
unguarded decrement (`--braces == 0`) compares exactly like the wrapped
`size_t` on all reachable states. -/
structure Container where
  type : CKind
  braces : Int
  parenthesis : Int
  name : List Char
  deriving DecidableEq, Repr

/-- Container(type, braces = 0): name defaults to empty. -/
def Container.mkT (type : CKind) (braces : Int := 0) : Container :=
  ⟨type, braces, 0, []⟩

/-- Container(name, type, braces = 0). -/
def Container.mkN (name : List Char) (type : CKind) (braces : Int := 0) : Container :=
  ⟨type, braces, 0, name⟩

/-- Parser::Error: message, 1-based line, and the excerpt captured by
SetCodeContainingError at construction time. -/
structure LexErr where
  msg : String
  line : Nat
  code_containing_error : List Char
  deriving DecidableEq, Repr

/-- The NUL byte: the C++ iterator treats it as end-of-input. -/
def nulC : Char := Char.ofNat 0

/-- Byte `i` of the buffer, NUL past the end (the mapped file is treated as a
NUL-terminated C string by Parser::Iterator). -/
def getC (chars : List Char) (i : Nat) : Char :=
  chars.getD i nulC

/-- Parser::Iterator: byte position plus 1-based line counter. -/
structure Iter where
  pos : Nat
  line : Nat
  deriving DecidableEq, Repr

def Iter.init : Iter := ⟨0, 1⟩

/-- Iterator::Value(). -/
def Value (chars : List Char) (it : Iter) : Char :=
  getC chars it.pos

/-- Iterator::PreviousValue(). -/
def PreviousValue (chars : List Char) (it : Iter) : Char :=
  if it.pos = 0 then nulC else getC chars (it.pos - 1)

/-- Iterator::Peek(). -/
def Peek (chars : List Char) (it : Iter) : Char :=
  if Value chars it = nulC then nulC else getC chars (it.pos + 1)

/-- Iterator::MoveNext(): no-op at NUL, else advance one byte, counting the
newline being left behind. -/
def MoveNext (chars : List Char) (it : Iter) : Iter :=
  if Value chars it = nulC then it
  else ⟨it.pos + 1, if Value chars it = '\n' then it.line + 1 else it.line⟩

/-- Iterator::MovePrevious(): no-op at the buffer start; note the C++ tests the
character the iterator is ON (`*current--`), not the one it moves onto, so the
line counter can desynchronise (see the directive/comment corner case). -/
def MovePrevious (chars : List Char) (it : Iter) : Iter :=
  if it.pos = 0 then it
  else ⟨it.pos - 1, if Value chars it = '\n' then it.line - 1 else it.line⟩

/-- Iterator::Advance(length): `length` MoveNext steps. -/
def advance (chars : List Char) : Iter → Nat → Iter
  | it, 0 => it
  | it, k + 1 => advance chars (MoveNext chars it) k

/-- C `isspace` over the ASCII characters the tool can meet. -/
def isSpaceC (c : Char) : Bool :=
  c = ' ' || c = '\t' || c = '\n' || c = '\x0b' || c = '\x0c' || c = '\r'

/-- Leading character of the identifier pattern `[_a-zA-Z]`. -/
def isIdentStart (c : Char) : Bool :=
  c = '_' || ('a' ≤ c && c ≤ 'z') || ('A' ≤ c && c ≤ 'Z')

/-- The regex word class `\w` = `[A-Za-z0-9_]`. -/
def isWordChar (c : Char) : Bool :=
  isIdentStart c || ('0' ≤ c && c ≤ '9')

def isOctalC (c : Char) : Bool :=
  '0' ≤ c && c ≤ '7'

def isHexC (c : Char) : Bool :=
  ('0' ≤ c && c ≤ '9') || ('a' ≤ c && c ≤ 'f') || ('A' ≤ c && c ≤ 'F')

/-- Characters allowed in a raw-string delimiter: `[^()\\\s]`. -/
def isRawDelimChar (c : Char) : Bool :=
  !(c = '(' || c = ')' || c = '\\' || isSpaceC c)

/-- Length of the maximal `\w*` run at the head of `l`. -/
def wRun (l : List Char) : Nat :=
  (l.takeWhile isWordChar).length

/-- Length of the maximal whitespace run at the head of `l` (regex `\s*`). -/
def wsRun (l : List Char) : Nat :=
  (l.takeWhile isSpaceC).length

/-- Offset of the first newline in `l` (or `l.length`): the span the regex `.`
can cover from here. -/
def idxOfNL (l : List Char) : Nat :=
  (l.takeWhile (fun c => c ≠ '\n')).length

/-- First offset at which `pat` occurs in `l`, any characters (including
newlines) before it: models the non-greedy `[\s\S]*?` search. -/
def findSub (l pat : List Char) : Option Nat :=
  if pat.isPrefixOf l then some 0
  else
    match l with
    | [] => Option.none
    | _ :: rest => (findSub rest pat).map (· + 1)

/-- First offset at which `pat` occurs in `l` with no newline before it:
models a non-greedy `.*?` search, whose `.` cannot cross a line break. -/
def findPatLine (l pat : List Char) : Option Nat :=
  if pat.isPrefixOf l then some 0
  else
    match l with
    | [] => Option.none
    | c :: rest =>
      if c = '\n' then Option.none
      else (findPatLine rest pat).map (· + 1)

/-- Byte slice of the inclusive range `[beg, fin]`: CodeBlock::ToString(). -/
def sliceB (chars : List Char) (b : Block) : List Char :=
  (chars.drop b.beg).take (b.fin + 1 - b.beg)

/-- The single-quote character. -/
def quoteC : Char := Char.ofNat 39

/-- Parser::Error construction: the message, the iterator's line, and
SetCodeContainingError's excerpt (up to 28 bytes from the iterator position,
stopping at NUL or a newline). -/
def mkError (msg : String) (chars : List Char) (it : Iter) : LexErr :=
  ⟨msg, it.line, ((chars.drop it.pos).takeWhile (fun c => !(c = nulC || c = '\n'))).take 28⟩

/-- One alternative of the escape regex: `['"\?\\abfnrtv]`. -/
def isSingleEsc (c : Char) : Bool :=
  c = quoteC || c = '"' || c = '?' || c = '\\' || c = 'a' || c = 'b' || c = 'f' ||
    c = 'n' || c = 'r' || c = 't' || c = 'v'

/-- Whether `l` starts with `n` characters satisfying `p`. -/
def startsN (l : List Char) (p : Char → Bool) (n : Nat) : Bool :=
  n ≤ l.length && (l.take n).all p

/-- Length consumed by the escape regex
`['"\?\\abfnrtv]|[0-7]{3}|x[0-9A-Fa-f]{2}|u[0-9A-Fa-f]{4}|U[0-9A-Fa-f]{8}`
at the head of `l` (alternatives tried left to right), or failure. -/
def escLen : List Char → Option Nat
  | [] => Option.none
  | c :: rest =>
    if isSingleEsc c then some 1
    else if isOctalC c && startsN rest isOctalC 2 then some 3
    else if c = 'x' && startsN rest isHexC 2 then some 3
    else if c = 'u' && startsN rest isHexC 4 then some 5
    else if c = 'U' && startsN rest isHexC 8 then some 9
    else Option.none

/-- Parser::ParseEscapeSequence: step past the backslash, then match the escape
regex or fail. -/
def ParseEscapeSequence (chars : List Char) (it : Iter) : Except LexErr Iter :=
  let it1 := MoveNext chars it
  match escLen (chars.drop it1.pos) with
  | some k => .ok (advance chars it1 k)
  | Option.none => .error (mkError "Invalid escape sequence" chars it1)

/-- Parser::ParseCharLiteral (entered at the opening quote). -/
def ParseCharLiteral (chars : List Char) (it : Iter) : Except LexErr Iter :=
  let it1 := MoveNext chars it
  let c := Value chars it1
  if c = quoteC then .error (mkError "Empty character literal found" chars it1)
  else
    match (if c = '\\' then ParseEscapeSequence chars it1 else .ok (MoveNext chars it1)) with
    | .error e => .error e
    | .ok it2 =>
      if Value chars it2 = quoteC then .ok (MoveNext chars it2)
      else .error (mkError "Character literal delimiter is missing" chars it2)

/-- Length consumed by the raw-string regex `([^()\\\s]{0,16})\(.*?\)\1"` at the
head of `l` (which starts just past the opening double quote), or failure.
The delimiter is the maximal run of allowed characters (at most 16); the
non-greedy `.*?` cannot cross a newline, so the closing `)delim"` must be
found before the next line break. -/
def rawLen (l : List Char) : Option Nat :=
  let d := l.takeWhile isRawDelimChar
  if 16 < d.length then Option.none
  else
    match l.drop d.length with
    | '(' :: rest =>
      match findPatLine rest (')' :: (d ++ ['"'])) with
      | some j => some (d.length + 1 + j + 1 + d.length + 1)
      | Option.none => Option.none
    | _ => Option.none

/-- Iterator::AdvanceUntilCharIsFound: move forward until one of `targets` (or
NUL / end of buffer) is under the cursor. -/
def AdvanceUntilCharIsFound (chars : List Char) (it : Iter) (targets : List Char) : Iter :=
  advance chars it
    ((chars.drop it.pos).takeWhile (fun c => !(c = nulC) && !targets.contains c)).length

/-- The scanning loop of Parser::ParseString for ordinary (non-raw) strings:
skip to the next backslash, quote or newline; a quote closes the literal, a
backslash re-enters the escape parser, anything else (newline or end of input)
is an unterminated string reported at the opening quote. -/
def stringBody (chars : List Char) (start : Iter) : Nat → Iter → Except LexErr Iter
  | 0, _ => .error (mkError "String does not end" chars start)
  | fuel + 1, it =>
    let it2 := AdvanceUntilCharIsFound chars it ['\\', '"', '\n']
    if Value chars it2 = '"' then .ok (MoveNext chars it2)
    else if Value chars it2 = '\\' then
      match ParseEscapeSequence chars it2 with
      | .ok it3 => stringBody chars start fuel it3
      | .error e => .error e
    else .error (mkError "String does not end" chars start)

/-- Parser::ParseString (entered at the opening double quote): raw string when
the previous byte is `R`, ordinary string otherwise. -/
def ParseString (chars : List Char) (it : Iter) : Except LexErr Iter :=
  let is_raw := PreviousValue chars it = 'R'
  let start := it
  let it1 := MoveNext chars it
  if is_raw then
    match rawLen (chars.drop it1.pos) with
    | some k => .ok (advance chars it1 k)
    | Option.none => .error (mkError "Invalid raw string" chars start)
  else stringBody chars start (chars.length + 1) it1

/-- Parser::ParseDirective (entered at `#`): if the same line contains a
block comment opener, consume up to and past it (regex `.*?/\*`); when the
comment also closes on this line, consume through `*/` and the rest of the
line (regex `.*?\*/.*`); otherwise back the iterator up two bytes so the
comment is processed separately. Without a comment opener, consume through the
end-of-line. -/
def ParseDirective (chars : List Char) (it : Iter) : Iter :=
  let it1 := MoveNext chars it
  match findPatLine (chars.drop it1.pos) ['/', '*'] with
  | some k =>
    let it2 := advance chars it1 (k + 2)
    match findPatLine (chars.drop it2.pos) ['*', '/'] with
    | some j =>
      let it3 := advance chars it2 (j + 2)
      advance chars it3 (idxOfNL (chars.drop it3.pos))
    | Option.none => MovePrevious chars (MovePrevious chars it2)
  | Option.none =>
    let it2 := AdvanceUntilCharIsFound chars it1 ['\n']
    MoveNext chars it2

/-- The `while (iterator.Match(R"(\s*//.*)"))` loop after a line comment:
keep absorbing whitespace-then-`//`-then-rest-of-line. -/
def lineComments (chars : List Char) : Nat → Iter → Iter
  | 0, it => it
  | fuel + 1, it =>
    let w := wsRun (chars.drop it.pos)
    if getC chars (it.pos + w) = '/' && getC chars (it.pos + w + 1) = '/' then
      lineComments chars fuel
        (advance chars it (w + 2 + idxOfNL (chars.drop (it.pos + w + 2))))
    else it

/-- Parser::ParseComments (entered at `/`): `some it` when a comment was
matched, `none` when the slash is not a comment opener; an unterminated block
comment raises the error at the opening `/*`. -/
def ParseComments (chars : List Char) (it : Iter) : Except LexErr (Option Iter) :=
  if Peek chars it = '*' then
    match findSub (chars.drop (it.pos + 2)) ['*', '/'] with
    | some j =>
      let stop := it.pos + 2 + j + 2
      .ok (some (advance chars it (2 + j + 2 + wsRun (chars.drop stop))))
    | Option.none => .error (mkError "C style comment (/*) does not end (*/)" chars it)
  else if Peek chars it = '/' then
    let it1 := advance chars it (2 + idxOfNL (chars.drop (it.pos + 2)))
    .ok (some (lineComments chars (chars.length + 1) it1))
  else .ok Option.none

/-- Parser::ParseWhiteSpaces: `while (isspace(iterator.Next()));` — one step
past the current space, then the maximal whitespace run. -/
def ParseWhiteSpaces (chars : List Char) (it : Iter) : Iter :=
  let it1 := MoveNext chars it
  advance chars it1 (wsRun (chars.drop it1.pos))

/-- Lexer state: the iterator, the block vector (stored reversed: head is the
vector's back), the container stack (head is the top), and the three working
strings of the Parser constructor. -/
structure PState where
  it : Iter
  blocksR : List Block
  containers : List Container
  next_container : CKind
  last_identifier : List Char
  container_name : List Char
  deriving Repr

def defaultContainer : Container := Container.mkT CKind.none

/-- Parser::CodeBlockReverseIterator: walking the block vector backwards
(here: forwards on the reversed list), skipping `none`, `empty` and `comment`
blocks; returns how many were skipped and the remaining list. -/
def revSkip : List Block → Nat × List Block
  | [] => (0, [])
  | b :: rest =>
    match b.type with
    | BKind.none | BKind.empty | BKind.comment =>
      let (s, r) := revSkip rest
      (s + 1, r)
    | _ => (0, b :: rest)

/-- The MergeWithPrevious lambda inside Parser::InsertCodeBlock. -/
def MergeWithPrevious (top : Container) (ty : BKind) (back : Block) : Bool :=
  ty = BKind.previous_type || ty = back.type ||
    (back.type = BKind.arguments_or_parameters && 0 < top.parenthesis) ||
    (back.type = BKind.initialization_list && top.type = CKind.initialization_list)

/-- Parser::MergeCodeBlocks: coalesce the freshly built block `nb` with the
tail of the vector (begin-group absorbs trailing whitespace; identifiers merge
across `::`; access modifiers absorb the preceding identifier; consecutive
initialisation-list fragments merge). Returns the updated reversed vector, or
`none` when no merge applies. -/
def MergeCodeBlocks (blocksR : List Block) (nb : Block) : Option (List Block) :=
  match blocksR with
  | [] => Option.none
  | back :: rest =>
    match nb.type with
    | BKind.begin_group =>
      if back.type = BKind.empty then
        some ({ back with fin := nb.fin, type := nb.type } :: rest)
      else Option.none
    | BKind.identifier =>
      match revSkip (back :: rest) with
      | (_, scope :: r1) =>
        if scope.type = BKind.identifier_scope then
          match revSkip r1 with
          | (_, idb :: r2) =>
            if idb.type = BKind.identifier then
              some ({ idb with fin := nb.fin, type := nb.type } :: r2)
            else some ({ scope with fin := nb.fin, type := nb.type } :: r1)
          | _ => some ({ scope with fin := nb.fin, type := nb.type } :: r1)
        else Option.none
      | _ => Option.none
    | BKind.access_modifier =>
      match revSkip (back :: rest) with
      | (_, idb :: r1) =>
        if idb.type = BKind.identifier then
          some ({ idb with fin := nb.fin, type := nb.type } :: r1)
        else Option.none
      | _ => Option.none
    | BKind.initialization_list =>
      match revSkip (back :: rest) with
      | (_, ilb :: r1) =>
        if ilb.type = BKind.initialization_list then
          some ({ ilb with fin := nb.fin, type := nb.type } :: r1)
        else Option.none
      | _ => Option.none
    | _ => Option.none

/-- The tail of Parser::InsertCodeBlock shared by the empty-vector and
no-merge paths: flush the gap `[ctp, beg - 1]` since `code_to_process` as an
`other` block, then (unless the type is `none`) append or merge the new block
`[beg, iterator.pos - 1]`. -/
def insertAppend (st : PState) (ty : BKind) (beg ctp : Nat) (bl : List Block) : PState :=
  let bl1 := if ctp < beg then Block.mk BKind.other ctp (beg - 1) :: bl else bl
  if ty = BKind.none then { st with blocksR := bl1 }
  else
    let nb : Block := ⟨ty, beg, st.it.pos - 1⟩
    match MergeCodeBlocks bl1 nb with
    | some bl2 => { st with blocksR := bl2 }
    | Option.none => { st with blocksR := nb :: bl1 }

/-- Parser::InsertCodeBlock: either extend the previous block
(MergeWithPrevious), or flush the gap since the previous block as an `other`
block and append/merge the new block `[beg, iterator.pos - 1]`. -/
def InsertCodeBlock (st : PState) (ty : BKind) (beg : Nat) : PState :=
  match st.blocksR with
  | [] => insertAppend st ty beg 0 []
  | back :: rest =>
    if MergeWithPrevious (st.containers.headD defaultContainer) ty back then
      { st with blocksR := { back with fin := st.it.pos - 1 } :: rest }
    else insertAppend st ty beg (back.fin + 1) (back :: rest)

/-- Increment the brace count of the top container. -/
def bumpBraces : List Container → List Container
  | [] => []
  | c :: rest => { c with braces := c.braces + 1 } :: rest

/-- Decrement the brace count of the top container. -/
def decBraces : List Container → List Container
  | [] => []
  | c :: rest => { c with braces := c.braces - 1 } :: rest

/-- Increment the parenthesis count of the top container. -/
def bumpParen : List Container → List Container
  | [] => []
  | c :: rest => { c with parenthesis := c.parenthesis + 1 } :: rest

/-- Decrement the parenthesis count of the top container. -/
def decParen : List Container → List Container
  | [] => []
  | c :: rest => { c with parenthesis := c.parenthesis - 1 } :: rest

/-- The tail of each main-loop iteration: a `none` block type just advances
the iterator, anything else inserts the block `[beg, iterator.pos - 1]`. -/
def finishStep (chars : List Char) (beg : Nat) (st' : PState) (ty : BKind) : PState :=
  if ty = BKind.none then { st' with it := MoveNext chars st'.it }
  else InsertCodeBlock st' ty beg

/-- One iteration of the Parser constructor's main loop, dispatching on the
current byte (which the caller has checked is not NUL). -/
def lexStep (chars : List Char) (st : PState) : Except LexErr PState :=
  let c := Value chars st.it
  let beg := st.it.pos
  let finish := finishStep chars beg
  if c = quoteC then
    match ParseCharLiteral chars st.it with
    | .error e => .error e
    | .ok it' => .ok (finish { st with it := it' } BKind.char_literal)
  else if c = '"' then
    match ParseString chars st.it with
    | .error e => .error e
    | .ok it' => .ok (finish { st with it := it' } BKind.string_literal)
  else if c = '#' then
    .ok (finish { st with it := ParseDirective chars st.it } BKind.directive)
  else if c = ';' then
    .ok (finish { st with it := MoveNext chars st.it } BKind.statement_terminator)
  else if c = Char.ofNat 123 then
    let st1 := { st with it := MoveNext chars st.it }
    let st2 :=
      if st1.next_container = CKind.none ||
          (st1.containers.headD defaultContainer).type = CKind.initialization_list then
        { st1 with containers := bumpBraces st1.containers }
      else
        { st1 with
            containers := Container.mkN st1.container_name st1.next_container 1 :: st1.containers,
            next_container := CKind.none,
            container_name := [] }
    .ok (finish st2 BKind.begin_group)
  else if c = Char.ofNat 125 then
    let top := st.containers.headD defaultContainer
    if top.braces = 0 then
      .error (mkError "An extra \x27\x7d\x27 was found. Perhaps you forgot a \x27\x7b\x27" chars st.it)
    else
      let cs1 := decBraces st.containers
      let top1 := cs1.headD defaultContainer
      if top1.type = CKind.initialization_list then
        let cs2 := if top1.braces = 0 && top1.parenthesis = 0 then cs1.tail else cs1
        .ok (finish { st with it := MoveNext chars st.it, containers := cs2 } BKind.previous_type)
      else
        let cs2 := if top1.braces = 0 && 1 < cs1.length then cs1.tail else cs1
        .ok (finish { st with it := MoveNext chars st.it, containers := cs2 } BKind.end_group)
  else if c = '/' then
    match ParseComments chars st.it with
    | .error e => .error e
    | .ok (some it') => .ok (finish { st with it := it' } BKind.comment)
    | .ok Option.none => .ok (finish st BKind.none)
  else if c = '(' then
    let top := st.containers.headD defaultContainer
    let st1 :=
      match top.type with
      | CKind.function => st
      | CKind.initialization_list => st
      | _ =>
        match revSkip st.blocksR with
        | (s, b :: r) =>
          if b.type = BKind.identifier then
            let isCtor := top.name = sliceB chars b
            { st with
                blocksR := st.blocksR.take s ++
                  ({ b with type := if isCtor then BKind.constructor_destructor
                                    else BKind.function_name } :: r),
                next_container := if isCtor then CKind.constructor_destructor else CKind.function,
                container_name := st.last_identifier }
          else st
        | _ => st
    .ok (finish { st1 with containers := bumpParen st1.containers,
                           it := MoveNext chars st1.it } BKind.arguments_or_parameters)
  else if c = ')' then
    let top := st.containers.headD defaultContainer
    if top.parenthesis = 0 then
      .error (mkError "An extra \x27)\x27 was found. Perhaps you forgot a \x27(\x27" chars st.it)
    else
      let cs1 := decParen st.containers
      let top1 := cs1.headD defaultContainer
      if top1.type = CKind.initialization_list then
        let cs2 := if top1.braces = 0 && top1.parenthesis = 0 then cs1.tail else cs1
        .ok (finish { st with it := MoveNext chars st.it, containers := cs2 } BKind.previous_type)
      else
        .ok (finish { st with it := MoveNext chars st.it, containers := cs1 }
              BKind.arguments_or_parameters)
  else if c = ',' then
    let top := st.containers.headD defaultContainer
    if top.type = CKind.initialization_list then
      .ok (finish { st with it := MoveNext chars st.it } BKind.none)
    else
      match revSkip st.blocksR with
      | (_, b :: _) =>
        if b.type = BKind.initialization_list then
          .ok (finish { st with
                  it := MoveNext chars st.it,
                  containers := Container.mkT CKind.initialization_list 0 :: st.containers }
                BKind.initialization_list)
        else .ok (finish { st with it := MoveNext chars st.it } BKind.none)
      | _ => .ok (finish { st with it := MoveNext chars st.it } BKind.none)
  else if c = ':' then
    let itn := MoveNext chars st.it
    if Value chars itn = ':' then
      .ok (finish { st with it := MoveNext chars itn } BKind.identifier_scope)
    else if st.next_container = CKind.constructor_destructor then
      .ok (finish { st with
              it := itn,
              containers := Container.mkT CKind.initialization_list 0 :: st.containers }
            BKind.initialization_list)
    else if st.last_identifier = "public".data || st.last_identifier = "protected".data ||
        st.last_identifier = "private".data then
      .ok (finish { st with it := itn } BKind.access_modifier)
    else
      .ok (finish { st with it := itn } BKind.none)
  else if isIdentStart c then
    let len := 1 + wRun (chars.drop (beg + 1))
    let ms := (chars.drop beg).take len
    let it' := advance chars st.it len
    if ms = "class".data then
      .ok (finish { st with
              it := it', next_container := CKind.class_container,
              container_name := [] } BKind.class_keyword)
    else if ms = "enum".data then
      .ok (finish { st with
              it := it', next_container := CKind.enumeration,
              container_name := [] } BKind.enumeration)
    else if ms = "namespace".data then
      .ok (finish { st with
              it := it', next_container := CKind.namespace_container,
              container_name := [] } BKind.namespace_keyword)
    else if ms = "struct".data then
      .ok (finish { st with
              it := it', next_container := CKind.struct_container,
              container_name := [] } BKind.struct_keyword)
    else
      .ok (finish { st with
              it := it', last_identifier := ms,
              container_name := if st.container_name = [] then ms else st.container_name }
            BKind.identifier)
  else if isSpaceC c then
    .ok (finish { st with it := ParseWhiteSpaces chars st.it } BKind.empty)
  else
    .ok (finish st BKind.none)

/-- Result of running the lexer. `fuelOut` is an artefact of the fuelled
recursion and is never reached with the fuel `parse` supplies. -/
inductive LexResult where
  | err (e : LexErr)
  | ok (blocks : List Block)
  | fuelOut
  deriving DecidableEq, Repr

/-- The Parser constructor's main loop: iterate `lexStep` until the NUL
terminator, then flush the trailing gap (`InsertCodeBlock(none, pointer)`). -/
def parseLoop (chars : List Char) : Nat → PState → LexResult
  | 0, _ => LexResult.fuelOut
  | fuel + 1, st =>
    if Value chars st.it = nulC then
      LexResult.ok (InsertCodeBlock st BKind.none st.it.pos).blocksR.reverse
    else
      match lexStep chars st with
      | .error e => LexResult.err e
      | .ok st' => parseLoop chars fuel st'

/-- Initial lexer state: sentinel `none` container, iterator at byte 0. -/
def initPState : PState :=
  ⟨Iter.init, [], [Container.mkT CKind.none], CKind.none, [], []⟩

/-- Running the Parser constructor on a buffer: the emitted block sequence in
order, or the first structured error. -/
def parse (chars : List Char) : LexResult :=
  parseLoop chars (chars.length + 1) initPState

/-- C `toupper` on the byte values the tool meets. -/
def toupperC (c : Char) : Char :=
  if 'a' ≤ c && c ≤ 'z' then Char.ofNat (c.toNat - 32) else c

/-- Mode of the CodeGuardNamespaces walk: the outer loop, the ProcessNamespace
lambda (carrying the pending `namespace_identifer`), or the skip-to-terminator
loop entered at a class/struct/enum keyword. -/
inductive GMode where
  | top
  | inNS (acc : List Char)
  | inSkip
  deriving Repr

/-- The block walk of CodeGuardNamespaces, written as one structural state
machine over the block list (the C++ uses an outer loop plus the
ProcessNamespace lambda sharing one iterator; the modes are those loops):
* `top`: a `namespace` keyword enters `inNS`; a class/struct/enum keyword
  enters `inSkip`; everything else is ignored.
* `inNS acc`: each identifier appends its text plus `_` to the pending name; a
  begin-group commits the pending name; a statement terminator (forward
  declaration) discards it.
* `inSkip`: a begin-group ends the whole walk; a statement terminator returns
  to `top`. -/
def guardGo (chars : List Char) : List Block → GMode → List Char
  | [], GMode.inNS _ => []
  | [], _ => []
  | b :: rest, GMode.top =>
    match b.type with
    | BKind.namespace_keyword => guardGo chars rest (GMode.inNS [])
    | BKind.enumeration | BKind.class_keyword | BKind.struct_keyword =>
      guardGo chars rest GMode.inSkip
    | _ => guardGo chars rest GMode.top
  | b :: rest, GMode.inNS acc =>
    match b.type with
    | BKind.begin_group => acc ++ guardGo chars rest GMode.top
    | BKind.statement_terminator => guardGo chars rest GMode.top
    | BKind.identifier => guardGo chars rest (GMode.inNS (acc ++ sliceB chars b ++ ['_']))
    | _ => guardGo chars rest (GMode.inNS acc)
  | b :: rest, GMode.inSkip =>
    match b.type with
    | BKind.begin_group => []
    | BKind.statement_terminator => guardGo chars rest GMode.top
    | _ => guardGo chars rest GMode.inSkip

/-- CodeGuardNamespaces from cppxgen.cpp. -/
def CodeGuardNamespaces (chars : List Char) (code_blocks : List Block) : List Char :=
  guardGo chars code_blocks GMode.top

/-- CodeGuardIdentifier from cppxgen.cpp: namespace chain, then the file stem
and `_H`, the whole string uppercased. -/
def CodeGuardIdentifier (chars stem : List Char) (code_blocks : List Block) : List Char :=
  (CodeGuardNamespaces chars code_blocks ++ stem ++ "_H".data).map toupperC

/-- CodeWriter from cppxgen.cpp: the two output streams plus the pending
buffer. -/
structure Writer where
  cpp_file : List Char
  header_file : List Char
  buffer : List Char
  deriving DecidableEq, Repr

def Writer.appendToBuffer (w : Writer) (s : List Char) : Writer :=
  { w with buffer := w.buffer ++ s }

def Writer.writeBufferToHeader (w : Writer) : Writer :=
  { w with header_file := w.header_file ++ w.buffer, buffer := [] }

def Writer.writeBufferToCpp (w : Writer) : Writer :=
  { w with cpp_file := w.cpp_file ++ w.buffer, buffer := [] }

def Writer.writeBufferToBoth (w : Writer) : Writer :=
  { w with header_file := w.header_file ++ w.buffer,
           cpp_file := w.cpp_file ++ w.buffer, buffer := [] }

/-- CodeWriter::WriteToHeader (also `HeaderFile() << s`): flush the buffer to
the header, then write `s`. -/
def Writer.writeToHeader (w : Writer) (s : List Char) : Writer :=
  let w1 := w.writeBufferToHeader
  { w1 with header_file := w1.header_file ++ s }

/-- CodeWriter::WriteToCpp (also `CppFile() << s`). -/
def Writer.writeToCpp (w : Writer) (s : List Char) : Writer :=
  let w1 := w.writeBufferToCpp
  { w1 with cpp_file := w1.cpp_file ++ s }

/-- CodeWriter::WriteToBoth. -/
def Writer.writeToBoth (w : Writer) (s : List Char) : Writer :=
  let w1 := w.writeBufferToBoth
  { w1 with header_file := w1.header_file ++ s, cpp_file := w1.cpp_file ++ s }

/-- Emitter state inside GenerateFileCode: the writer, the emitter's own
container stack (head = top), and the pending next-container kind. -/
structure EState where
  w : Writer
  containers : List Container
  next_container : CKind
  deriving Repr

/-- The ProcessContainer lambda of GenerateFileCode: buffer every block of a
container header until its begin-group (push the container, flush the header
prefix to the interface) or a statement terminator (forward declaration).
The argument list holds the blocks after the current one; the returned list
holds the blocks after the one the shared iterator stopped on. -/
def ProcessContainer (chars : List Char) (st : EState) (identifier : List Char) :
    List Block → EState × List Block
  | [] => (st, [])
  | b :: rest =>
    let cur := sliceB chars b
    let st1 := { st with w := st.w.appendToBuffer cur }
    match b.type with
    | BKind.identifier =>
      ProcessContainer chars st1 (if identifier = [] then cur else identifier) rest
    | BKind.begin_group =>
      ({ st1 with
          w := st1.w.writeBufferToHeader,
          containers := Container.mkN identifier st1.next_container 1 :: st1.containers },
        rest)
    | BKind.statement_terminator =>
      ({ st1 with w := st1.w.writeBufferToHeader }, rest)
    | _ => ProcessContainer chars st1 identifier rest

/-- The inner body-routing loop of the function lambda: while the top container
is the function frame, write every block to the implementation, tracking the
brace counter and popping the frame when it returns to zero. -/
def FunctionBody (chars : List Char) (st : EState) : List Block → EState × List Block
  | [] => (st, [])
  | b :: rest =>
    if (st.containers.headD defaultContainer).type = CKind.function then
      let st1 := { st with w := st.w.writeToCpp (sliceB chars b) }
      match b.type with
      | BKind.begin_group =>
        FunctionBody chars { st1 with containers := bumpBraces st1.containers } rest
      | BKind.end_group =>
        let cs1 := decBraces st1.containers
        let cs2 := if (cs1.headD defaultContainer).braces = 0 then cs1.tail else cs1
        FunctionBody chars { st1 with containers := cs2 } rest
      | _ => FunctionBody chars st1 rest
    else (st, b :: rest)

/-- The function lambda of GenerateFileCode: accumulate the signature until a
begin-group or initialisation list (definition: flush the buffer to both
streams, qualify with every non-empty container name on the stack, write the
signature to both, `;` to the interface only, the trigger block to the
implementation, then route the body to the implementation) or a statement
terminator (declaration: signature plus `;` to the interface). -/
def FunctionSig (chars : List Char) (st : EState) (function_name fn : List Char) :
    List Block → EState × List Block
  | [] => (st, [])
  | b :: rest =>
    let cur := sliceB chars b
    match b.type with
    | BKind.begin_group | BKind.initialization_list =>
      let w1 := st.w.writeBufferToBoth
      let w2 := st.containers.reverse.foldl
        (fun w c => if 0 < c.name.length then w.writeToCpp (c.name ++ "::".data) else w) w1
      let w3 := (w2.writeToBoth fn).writeToHeader [';']
      let w4 := w3.writeToCpp cur
      let st1 : EState :=
        { st with
            w := w4,
            containers := Container.mkN function_name CKind.function
              (if b.type = BKind.begin_group then 1 else 0) :: st.containers }
      FunctionBody chars st1 rest
    | BKind.statement_terminator =>
      ({ st with w := st.w.writeToHeader (fn ++ cur) }, rest)
    | _ => FunctionSig chars st function_name (fn ++ cur) rest

/-- The main emission loop of GenerateFileCode (`while (++code_block != cend)`).
The argument list holds the blocks after the current iterator position, so
each call processes the head — exactly the pre-increment of the C++ loop. -/
def emitLoop (chars : List Char) : Nat → EState → List Block → EState
  | _, st, [] => st
  | 0, st, _ => st
  | fuel + 1, st, b :: rest =>
    let cur := sliceB chars b
    match b.type with
    | BKind.directive =>
      emitLoop chars fuel { st with w := st.w.writeToHeader cur } rest
    | BKind.access_modifier =>
      emitLoop chars fuel { st with w := st.w.writeToHeader cur } rest
    | BKind.namespace_keyword =>
      let st1 := { st with
        next_container := CKind.namespace_container, w := st.w.appendToBuffer cur }
      let pr := ProcessContainer chars st1 [] rest
      emitLoop chars fuel pr.1 pr.2
    | BKind.class_keyword =>
      let st1 := { st with
        next_container := CKind.class_container, w := st.w.appendToBuffer cur }
      let pr := ProcessContainer chars st1 [] rest
      emitLoop chars fuel pr.1 pr.2
    | BKind.struct_keyword =>
      let st1 := { st with
        next_container := CKind.struct_container, w := st.w.appendToBuffer cur }
      let pr := ProcessContainer chars st1 [] rest
      emitLoop chars fuel pr.1 pr.2
    | BKind.enumeration =>
      let st1 := { st with
        next_container := CKind.enumeration, w := st.w.appendToBuffer cur }
      let pr := ProcessContainer chars st1 [] rest
      emitLoop chars fuel pr.1 pr.2
    | BKind.function_name =>
      let pr := FunctionSig chars st cur cur rest
      emitLoop chars fuel pr.1 pr.2
    | BKind.constructor_destructor =>
      let pr := FunctionSig chars st cur cur rest
      emitLoop chars fuel pr.1 pr.2
    | BKind.statement_terminator =>
      emitLoop chars fuel { st with w := st.w.writeToHeader cur } rest
    | BKind.end_group =>
      let st1 := { st with w := st.w.writeToHeader cur }
      let cs1 := decBraces st1.containers
      let cs2 :=
        if (cs1.headD defaultContainer).braces = 0 && 1 < cs1.length then cs1.tail else cs1
      emitLoop chars fuel { st1 with containers := cs2 } rest
    | BKind.begin_group =>
      emitLoop chars fuel
        { st with w := st.w.writeToHeader cur, containers := bumpBraces st.containers } rest
    | _ =>
      emitLoop chars fuel { st with w := st.w.appendToBuffer cur } rest

/-- The prologue of GenerateFileCode: pass a leading comment block to both
streams, write the include-guard `#ifndef`/`#define` lines to the interface
and the `#include "<header_filename>"` directive to the implementation.
Returns the writer and the blocks after the optional leading comment. -/
def emitPrologue (chars dir stem : List Char) (code_blocks : List Block) : Writer × List Block :=
  let header_filename := dir ++ stem ++ ".h".data
  let w0 : Writer := ⟨[], [], []⟩
  let start :=
    match code_blocks with
    | b :: rest =>
      if b.type = BKind.comment then (w0.writeToBoth (sliceB chars b), rest)
      else (w0, code_blocks)
    | [] => (w0, [])
  let include_guard := CodeGuardIdentifier chars stem code_blocks
  let w2 := start.1.writeToHeader ("#ifndef ".data ++ include_guard ++ ['\n'])
  let w3 := w2.writeToHeader ("#define ".data ++ include_guard ++ ['\n', '\n'])
  (w3.writeToCpp ("#include \"".data ++ header_filename ++ ['"', '\n', '\n']), start.2)

/-- GenerateFileCode from cppxgen.cpp, for an input file `dir ++ stem ++ ".cppx"`:
parse, write the prologue (with `header_filename` the input path with its
extension replaced by `.h`), run the emission loop — whose pre-increment skips
the block after the prologue — and close the interface with the `#endif`
epilogue. Returns `(header, cpp)` bytes, or `none` on a lexer error / empty
block list. -/
def GenerateFileCode (chars dir stem : List Char) : Option (List Char × List Char) :=
  match parse chars with
  | LexResult.ok code_blocks =>
    if code_blocks = [] then Option.none
    else
      let pw := emitPrologue chars dir stem code_blocks
      let st0 : EState := ⟨pw.1, [Container.mkT CKind.none], CKind.none⟩
      let stF := emitLoop chars (pw.2.length + 1) st0 pw.2.tail
      let wF := stF.w.writeToHeader
        ("\n\n#endif // ".data ++ CodeGuardIdentifier chars stem code_blocks ++ ['\n', '\n'])
      some (wF.header_file, wF.cpp_file)
  | _ => Option.none

/-- Whether `pat` occurs as a contiguous run of bytes inside `l`. -/
def containsSub (l pat : List Char) : Bool :=
  (findSub l pat).isSome

/-- 1-based line number of byte position `p` in the buffer. -/
def lineOfPos (chars : List Char) (p : Nat) : Nat :=
  1 + ((chars.take p).filter (fun c => c = '\n')).length

/-- A byte allowed in a host-language macro identifier after uppercasing:
`[A-Z0-9_]`. -/
def isMacroChar (c : Char) : Bool :=
  ('A' ≤ c && c ≤ 'Z') || ('0' ≤ c && c ≤ '9') || c = '_'

/-- A string that is shaped like a host-language identifier: non-empty, does
not start with a digit, `[A-Za-z0-9_]` throughout. -/
def identLike (s : List Char) : Bool :=
  !s.isEmpty && isIdentStart (s.headD '_') && s.all isWordChar

/-- A file stem that is identifier-shaped (or empty). -/
def stemLike (s : List Char) : Bool :=
  s.all isWordChar && isIdentStart (s.headD '_')

/-- The container stack is non-empty and its bottom frame is the `None`
sentinel. -/
def lastSentinelB : List Container → Bool
  | [] => false
  | [c] => c.type = CKind.none
  | _ :: rest => lastSentinelB rest

/-- Extract the container stack from a lexer-step result: on an error the
stack is dead, so return the pre-step stack. -/
def stepContainers (r : Except LexErr PState) (d : List Container) : List Container :=
  match r with
  | .ok s => s.containers
  | .error _ => d

/-- Frontier of the reversed block vector: the byte position just past the
newest block (0 when the vector is empty). -/
def chainTo : List Block → Nat
  | [] => 0
  | b :: _ => b.fin + 1

/-- The reversed block vector is a contiguous partition of `[0, chainTo bl)`:
every block is a non-empty inclusive range and starts exactly where the block
below it in the vector ended. -/
def chainOKB : List Block → Bool
  | [] => true
  | b :: rest => decide (b.beg ≤ b.fin) && decide (b.beg = chainTo rest) && chainOKB rest

/-- The lexer-loop coverage invariant: the emitted blocks tile `[0, chainTo)`
without gaps or overlaps, the frontier never passes the iterator, and the
iterator never passes the end of the buffer. -/
def ChainInv (chars : List Char) (st : PState) : Prop :=
  chainOKB st.blocksR = true ∧ chainTo st.blocksR ≤ st.it.pos ∧
    st.it.pos ≤ chars.length

/-- C1: the claim states that for a function definition inside a class the
interface gets `int f();` and the implementation gets `int C::f() { return 1; }`
with the qualified scope prefix. On the exact example input the code violates
this: the emitter's `while (++code_block != cend)` pre-increments past the
first block, so the leading `class` keyword block is skipped, no `C` container
is ever pushed, and the implementation receives ` int f() { return 1; }`
without the `C::` qualifier (the interface also loses the word `class`). The
interface does still contain `int f();`. -/
theorem c1_skip_bug :
    GenerateFileCode "class C \x7b public: int f() \x7b return 1; \x7d \x7d;".data [] "x".data =
      some ("#ifndef X_H\n#define X_H\n\n C \x7b public: int f(); \x7d;\n\n#endif // X_H\n\n".data,
            "#include \"x.h\"\n\n int f() \x7b return 1; \x7d".data) ∧
    containsSub "#include \"x.h\"\n\n int f() \x7b return 1; \x7d".data "C::".data = false ∧
    containsSub "#ifndef X_H\n#define X_H\n\n C \x7b public: int f(); \x7d;\n\n#endif // X_H\n\n".data
      "class".data = false ∧
    containsSub "#ifndef X_H\n#define X_H\n\n C \x7b public: int f(); \x7d;\n\n#endif // X_H\n\n".data
      "int f();".data = true := by
  exact ⟨rfl, by decide, by decide, by decide⟩

/-- C3: the claim states that on every successfully processed file no input
block's bytes are lost. On `int a;` (stem `x`) the lexer succeeds, yet the
bytes `int` of the first block reach neither output stream: the emitter loop
pre-increments past the first non-comment block. -/
theorem c3_first_block_lost :
    GenerateFileCode "int a;".data [] "x".data =
      some ("#ifndef X_H\n#define X_H\n\n a;\n\n#endif // X_H\n\n".data,
            "#include \"x.h\"\n\n".data) ∧
    containsSub ("#ifndef X_H\n#define X_H\n\n a;\n\n#endif // X_H\n\n".data ++
      "#include \"x.h\"\n\n".data) "int".data = false := by
  exact ⟨rfl, by decide⟩

/-- C7: the claim states every lexer error reports the 1-based line of
detection, and that an unterminated `/*` reports the line of the opening `/*`.
On `#d /*\nx` the opening `/*` is on line 1, but the reported line is 0:
ParseDirective's MoveBack(2) runs MovePrevious, which tests the character the
iterator is ON (`*current--`), so backing up from the newline right after `/*`
wrongly decrements the line counter that never counted that newline. The
excerpt is still the 2 bytes starting at the `/*`. -/
theorem c7_line_counter_bug :
    parse "#d /*\nx".data =
      LexResult.err ⟨"C style comment (/*) does not end (*/)", 0, "/*".data⟩ ∧
    getC "#d /*\nx".data 3 = '/' ∧ getC "#d /*\nx".data 4 = '*' ∧
    lineOfPos "#d /*\nx".data 3 = 1 ∧ (0 : Nat) ≠ 1 := by
  exact ⟨rfl, rfl, rfl, by decide, by decide⟩

/-- C8 counterexample: the claim states the directive block ends just before
`/*` regardless of whether the comment closes on the same line. On
`#a /*b*/ c\nd;` the comment closes on the same line and the emitted directive
block is `[0, 9]` — the whole line including the comment — ending well past
index 2 (the byte before the `/*`), and no comment block is emitted at all. -/
theorem c8_counterexample :
    parse "#a /*b*/ c\nd;".data =
      LexResult.ok [⟨BKind.directive, 0, 9⟩, ⟨BKind.empty, 10, 10⟩,
        ⟨BKind.identifier, 11, 11⟩, ⟨BKind.statement_terminator, 12, 12⟩] ∧
    (∀ b ∈ [Block.mk BKind.directive 0 9, Block.mk BKind.empty 10 10,
        Block.mk BKind.identifier 11 11, Block.mk BKind.statement_terminator 12 12],
      b.type ≠ BKind.comment) ∧
    getC "#a /*b*/ c\nd;".data 3 = '/' ∧ (2 : Nat) < 9 := by
  exact ⟨rfl, by decide, rfl, by decide⟩

/-- C4 counterexample: the claim states the implementation prologue directive
is exactly `#include "<stem>.h"` with no directory components. For the input
file `d/n.cppx` the code writes `#include "d/n.h"` — header_filename is the
whole input path with its extension replaced — which differs from
`#include "n.h"`. -/
theorem c4_counterexample :
    GenerateFileCode ";".data "d/".data "n".data =
      some ("#ifndef N_H\n#define N_H\n\n\n\n#endif // N_H\n\n".data,
            "#include \"d/n.h\"\n\n".data) ∧
    "#include \"d/n.h\"\n\n".data ≠ "#include \"n.h\"\n\n".data := by
  exact ⟨rfl, by decide⟩

/-- C5 counterexample: the claim quantifies over every file stem, but the
guard synthesiser only uppercases — it does not sanitise. Stem `a-b` yields
guard `A-B_H`, which contains `-` (not in `[A-Z0-9_]`); stem `1a` yields
`1A_H`, which starts with a digit. -/
theorem c5_counterexample :
    CodeGuardIdentifier [] "a-b".data [] = "A-B_H".data ∧
    (CodeGuardIdentifier [] "a-b".data []).all isMacroChar = false ∧
    (CodeGuardIdentifier [] "1a".data []).headD '_' = '1' ∧ Char.isDigit '1' = true := by
  exact ⟨rfl, by decide, rfl, by decide⟩

/-- The implementation stream only ever grows: `w'` extends `w`. -/
def CppExt (w w' : Writer) : Prop :=
  ∃ t, w'.cpp_file = w.cpp_file ++ t

theorem cppExt_refl (w : Writer) : CppExt w w :=
  ⟨[], by simp⟩

theorem cppExt_trans {a b c : Writer} (h1 : CppExt a b) (h2 : CppExt b c) : CppExt a c := by
  obtain ⟨t1, ht1⟩ := h1
  obtain ⟨t2, ht2⟩ := h2
  exact ⟨t1 ++ t2, by simp [ht2, ht1]⟩

theorem cppExt_appendToBuffer (w : Writer) (s : List Char) : CppExt w (w.appendToBuffer s) :=
  ⟨[], by simp [Writer.appendToBuffer]⟩

theorem cppExt_writeBufferToHeader (w : Writer) : CppExt w w.writeBufferToHeader :=
  ⟨[], by simp [Writer.writeBufferToHeader]⟩

theorem cppExt_writeBufferToBoth (w : Writer) : CppExt w w.writeBufferToBoth :=
  ⟨w.buffer, by simp [Writer.writeBufferToBoth]⟩

theorem cppExt_writeToHeader (w : Writer) (s : List Char) : CppExt w (w.writeToHeader s) :=
  ⟨[], by simp [Writer.writeToHeader, Writer.writeBufferToHeader]⟩

theorem cppExt_writeToCpp (w : Writer) (s : List Char) : CppExt w (w.writeToCpp s) :=
  ⟨w.buffer ++ s, by simp [Writer.writeToCpp, Writer.writeBufferToCpp]⟩

theorem cppExt_writeToBoth (w : Writer) (s : List Char) : CppExt w (w.writeToBoth s) :=
  ⟨w.buffer ++ s, by simp [Writer.writeToBoth, Writer.writeBufferToBoth]⟩

theorem cppExt_ProcessContainer (chars : List Char) :
    ∀ (l : List Block) (st : EState) (ident : List Char),
      CppExt st.w ((ProcessContainer chars st ident l).1).w := by
  intro l
  induction l with
  | nil => intro st ident; exact cppExt_refl _
  | cons b rest ih =>
    intro st ident
    rw [ProcessContainer]
    rcases b with ⟨ty, bb, bf⟩
    cases ty <;>
      first
        | exact cppExt_trans (cppExt_appendToBuffer _ _) (ih _ _)
        | exact cppExt_trans (cppExt_appendToBuffer _ _) (cppExt_writeBufferToHeader _)

theorem cppExt_FunctionBody (chars : List Char) :
    ∀ (l : List Block) (st : EState), CppExt st.w ((FunctionBody chars st l).1).w := by
  intro l
  induction l with
  | nil => intro st; exact cppExt_refl _
  | cons b rest ih =>
    intro st
    rw [FunctionBody]
    by_cases hf : (st.containers.headD defaultContainer).type = CKind.function
    · rw [if_pos hf]
      rcases b with ⟨ty, bb, bf⟩
      cases ty <;> exact cppExt_trans (cppExt_writeToCpp _ _) (ih _)
    · rw [if_neg hf]
      exact cppExt_refl _

theorem cppExt_scopeFold (names : List Container) (w : Writer) :
    CppExt w (names.foldl
      (fun w c => if 0 < c.name.length then w.writeToCpp (c.name ++ "::".data) else w) w) := by
  induction names generalizing w with
  | nil => exact cppExt_refl _
  | cons c rest ih =>
    refine cppExt_trans ?_ (ih _)
    dsimp only
    by_cases h : 0 < c.name.length
    · rw [if_pos h]; exact cppExt_writeToCpp _ _
    · rw [if_neg h]; exact cppExt_refl _

theorem cppExt_FunctionSig (chars : List Char) :
    ∀ (l : List Block) (st : EState) (fname fn : List Char),
      CppExt st.w ((FunctionSig chars st fname fn l).1).w := by
  intro l
  induction l with
  | nil => intro st fname fn; exact cppExt_refl _
  | cons b rest ih =>
    intro st fname fn
    rcases b with ⟨ty, bb, bf⟩
    cases ty <;> simp only [FunctionSig] <;>
      first
        | exact ih _ _ _
        | exact cppExt_writeToHeader _ _
        | exact cppExt_trans (cppExt_writeBufferToBoth _)
            (cppExt_trans (cppExt_scopeFold _ _)
              (cppExt_trans (cppExt_writeToBoth _ _)
                (cppExt_trans (cppExt_writeToHeader _ _)
                  (cppExt_trans (cppExt_writeToCpp _ _) (cppExt_FunctionBody chars rest _)))))

theorem cppExt_emitLoop (chars : List Char) :
    ∀ (fuel : Nat) (st : EState) (l : List Block), CppExt st.w ((emitLoop chars fuel st l)).w := by
  intro fuel
  induction fuel with
  | zero =>
    intro st l
    cases l <;> exact cppExt_refl _
  | succ n ih =>
    intro st l
    match l with
    | [] => exact cppExt_refl _
    | b :: rest =>
      rcases b with ⟨ty, bb, bf⟩
      cases ty <;> simp only [emitLoop] <;>
        first
          | exact cppExt_trans (cppExt_writeToHeader _ _) (ih _ _)
          | exact cppExt_trans (cppExt_appendToBuffer _ _) (ih _ _)
          | (refine cppExt_trans ?_ (ih _ _)
             exact cppExt_trans (cppExt_appendToBuffer _ _)
               (cppExt_ProcessContainer chars rest _ _))
          | exact cppExt_trans (cppExt_FunctionSig chars rest _ _ _) (ih _ _)

theorem writeToHeader_cpp (w : Writer) (s : List Char) :
    (w.writeToHeader s).cpp_file = w.cpp_file := rfl

theorem writeToHeader_buffer (w : Writer) (s : List Char) :
    (w.writeToHeader s).buffer = [] := rfl

theorem writeToCpp_cpp (w : Writer) (s : List Char) :
    (w.writeToCpp s).cpp_file = w.cpp_file ++ w.buffer ++ s := by
  simp [Writer.writeToCpp, Writer.writeBufferToCpp]

theorem writeToBoth_cpp (w : Writer) (s : List Char) :
    (w.writeToBoth s).cpp_file = w.cpp_file ++ w.buffer ++ s := by
  simp [Writer.writeToBoth, Writer.writeBufferToBoth]

/-- C4 amended: what the prologue actually writes to the implementation stream
is `#include "<header_filename>"`, where header_filename is the whole input
path with its extension replaced by `.h` — directory components included.
(The original claim, refuted by `c4_counterexample`, holds only for input
paths with no directory part.) The bytes before the directive are the
pass-through of a leading comment; everything after it is the emitted
implementation content. -/
theorem emitPrologue_cpp (chars dir stem : List Char) (bs : List Block) :
    ∃ pre, (emitPrologue chars dir stem bs).1.cpp_file =
      pre ++ ("#include \"".data ++ (dir ++ stem ++ ".h".data) ++ ['"', '\n', '\n']) := by
  unfold emitPrologue
  rcases bs with - | ⟨b, rest⟩
  · exact ⟨[], by simp [writeToCpp_cpp, writeToHeader_cpp, writeToHeader_buffer]⟩
  · dsimp only
    by_cases hbt : b.type = BKind.comment
    · rw [if_pos hbt]
      refine ⟨sliceB chars b, ?_⟩
      rw [writeToCpp_cpp, writeToHeader_cpp, writeToHeader_cpp, writeToHeader_buffer,
        writeToBoth_cpp]
      simp [Writer.writeToBoth, Writer.writeBufferToBoth]
    · rw [if_neg hbt]
      exact ⟨[], by simp [writeToCpp_cpp, writeToHeader_cpp, writeToHeader_buffer]⟩

theorem c4_include_path (chars dir stem hdr cpp : List Char)
    (h : GenerateFileCode chars dir stem = some (hdr, cpp)) :
    ∃ pre rest,
      cpp = pre ++ ("#include \"".data ++ (dir ++ stem ++ ".h".data) ++ ['"', '\n', '\n']) ++ rest := by
  unfold GenerateFileCode at h
  rcases hp : parse chars with e | code_blocks | _ <;> rw [hp] at h <;> dsimp only at h
  · simp at h
  case ok =>
    by_cases hne : code_blocks = []
    · rw [if_pos hne] at h; simp at h
    · rw [if_neg hne] at h
      simp only [Option.some.injEq, Prod.mk.injEq] at h
      obtain ⟨-, hcpp⟩ := h
      subst hcpp
      rw [writeToHeader_cpp]
      obtain ⟨t, ht⟩ := cppExt_emitLoop chars
        ((emitPrologue chars dir stem code_blocks).2.length + 1)
        ⟨(emitPrologue chars dir stem code_blocks).1, [Container.mkT CKind.none], CKind.none⟩
        (emitPrologue chars dir stem code_blocks).2.tail
      rw [ht]
      obtain ⟨pre, hpre⟩ := emitPrologue_cpp chars dir stem code_blocks
      refine ⟨pre, t, ?_⟩
      dsimp only at hpre ⊢
      rw [hpre]
  · simp at h

theorem c4_include_path_witness :
    ∃ pre rest, "#include \"d/n.h\"\n\n".data =
      pre ++ ("#include \"".data ++ ("d/".data ++ "n".data ++ ".h".data) ++ ['"', '\n', '\n']) ++ rest :=
  c4_include_path ";".data "d/".data "n".data
    "#ifndef N_H\n#define N_H\n\n\n\n#endif // N_H\n\n".data
    "#include \"d/n.h\"\n\n".data rfl

theorem char_le_toNat {a b : Char} : a ≤ b ↔ a.toNat ≤ b.toNat := by
  rw [Char.le_def]
  exact ⟨fun h => h, fun h => h⟩

theorem toNat_ofNat_small {n : Nat} (h : n < 55296) : (Char.ofNat n).toNat = n := by
  have hv : n.isValidChar := Or.inl h
  simp only [Char.ofNat, hv, dif_pos]
  simp only [Char.toNat, Char.ofNatAux, UInt32.ofNat', UInt32.toNat]
  simp [Nat.mod_eq_of_lt (by omega : n < 4294967296)]

/-- Uppercasing a word character (`[A-Za-z0-9_]`) lands in `[A-Z0-9_]`. -/
theorem toupperC_macro {c : Char} (h : isWordChar c = true) : isMacroChar (toupperC c) = true := by
  unfold isWordChar isIdentStart at h
  unfold toupperC isMacroChar
  by_cases hl : ('a' ≤ c && c ≤ 'z') = true
  · rw [if_pos hl]
    rw [Bool.and_eq_true, decide_eq_true_eq, decide_eq_true_eq] at hl
    have h1 : 97 ≤ c.toNat := char_le_toNat.mp hl.1
    have h2 : c.toNat ≤ 122 := char_le_toNat.mp hl.2
    have ht : (Char.ofNat (c.toNat - 32)).toNat = c.toNat - 32 :=
      toNat_ofNat_small (by omega)
    have hA : ('A' ≤ Char.ofNat (c.toNat - 32)) := by
      rw [char_le_toNat, ht, show 'A'.toNat = 65 from rfl]; omega
    have hZ : (Char.ofNat (c.toNat - 32) ≤ 'Z') := by
      rw [char_le_toNat, ht, show 'Z'.toNat = 90 from rfl]; omega
    simp [hA, hZ]
  · rw [if_neg hl]
    rw [Bool.or_eq_true, Bool.or_eq_true, Bool.or_eq_true] at h
    rcases h with ((h_ | h_) | h_) | h_
    · rw [decide_eq_true_eq] at h_; subst h_; decide
    · exact absurd h_ hl
    · simp [h_]
    · simp [h_]

/-- Uppercasing an identifier-start character (`[_A-Za-z]`) stays an
identifier-start character (`[_A-Z]` in fact), in particular not a digit. -/
theorem toupperC_identStart {c : Char} (h : isIdentStart c = true) :
    isIdentStart (toupperC c) = true := by
  unfold isIdentStart at h ⊢
  unfold toupperC
  by_cases hl : ('a' ≤ c && c ≤ 'z') = true
  · rw [if_pos hl]
    rw [Bool.and_eq_true, decide_eq_true_eq, decide_eq_true_eq] at hl
    have h1 : 97 ≤ c.toNat := char_le_toNat.mp hl.1
    have h2 : c.toNat ≤ 122 := char_le_toNat.mp hl.2
    have ht : (Char.ofNat (c.toNat - 32)).toNat = c.toNat - 32 :=
      toNat_ofNat_small (by omega)
    have hA : ('A' ≤ Char.ofNat (c.toNat - 32)) := by
      rw [char_le_toNat, ht, show 'A'.toNat = 65 from rfl]; omega
    have hZ : (Char.ofNat (c.toNat - 32) ≤ 'Z') := by
      rw [char_le_toNat, ht, show 'Z'.toNat = 90 from rfl]; omega
    simp [hA, hZ]
  · rw [if_neg hl]
    exact h

/-- The shape invariant the guard walk maintains: only word characters, and
not starting with a digit (`headD '_'` is an identifier-start character). -/
def wordShaped (s : List Char) : Bool :=
  s.all isWordChar && isIdentStart (s.headD '_')

theorem wordShaped_nil : wordShaped [] = true := by decide

theorem wordShaped_append {a b : List Char} (ha : wordShaped a = true)
    (hb : wordShaped b = true) : wordShaped (a ++ b) = true := by
  unfold wordShaped at ha hb ⊢
  rw [Bool.and_eq_true] at ha hb ⊢
  refine ⟨by simp [List.all_append, ha.1, hb.1], ?_⟩
  cases a with
  | nil => simpa using hb.2
  | cons x xs => simpa using ha.2

theorem wordShaped_of_identLike {s : List Char} (h : identLike s = true) :
    wordShaped (s ++ ['_']) = true := by
  unfold identLike at h
  rw [Bool.and_eq_true, Bool.and_eq_true] at h
  unfold wordShaped
  rw [Bool.and_eq_true]
  constructor
  · simp only [List.all_append, Bool.and_eq_true]
    exact ⟨h.2, by decide⟩
  · cases s with
    | nil => simp at h
    | cons x xs => simpa using h.1.2

/-- Every string the guard walk can produce is word-shaped, provided every
identifier block it can consult has identifier-shaped text. -/
theorem guardGo_wordShaped (chars : List Char) :
    ∀ (blocks : List Block) (mode : GMode),
      (∀ b ∈ blocks, b.type = BKind.identifier → identLike (sliceB chars b) = true) →
      (∀ acc, mode = GMode.inNS acc → wordShaped acc = true) →
      wordShaped (guardGo chars blocks mode) = true := by
  intro blocks
  induction blocks with
  | nil =>
    intro mode _ _
    cases mode <;> simp [guardGo, wordShaped_nil]
  | cons b rest ih =>
    intro mode hids hacc
    have hidsr : ∀ b ∈ rest, b.type = BKind.identifier → identLike (sliceB chars b) = true :=
      fun x hx => hids x (List.mem_cons_of_mem _ hx)
    have hidb := hids b (List.mem_cons_self _ _)
    rcases b with ⟨ty, bb, bf⟩
    have h1 : ∀ a, GMode.top = GMode.inNS a → wordShaped a = true :=
      fun _ h => GMode.noConfusion h
    have h2 : ∀ a, GMode.inSkip = GMode.inNS a → wordShaped a = true :=
      fun _ h => GMode.noConfusion h
    have h3 : ∀ a, GMode.inNS [] = GMode.inNS a → wordShaped a = true := by
      intro a h
      cases h
      exact wordShaped_nil
    cases mode with
    | top =>
      cases ty <;> simp only [guardGo] <;>
        first
          | exact ih _ hidsr h1
          | exact ih _ hidsr h2
          | exact ih _ hidsr h3
    | inNS acc =>
      have hacc' : wordShaped acc = true := hacc acc rfl
      have hsame : ∀ a, GMode.inNS acc = GMode.inNS a → wordShaped a = true := by
        intro a h
        cases h
        exact hacc'
      cases ty <;> simp only [guardGo] <;>
        first
          | exact ih _ hidsr h1
          | exact wordShaped_append hacc' (ih _ hidsr h1)
          | exact ih _ hidsr (by
              intro a h
              cases h
              rw [List.append_assoc]
              exact wordShaped_append hacc' (wordShaped_of_identLike (hidb rfl)))
          | exact ih _ hidsr hsame
    | inSkip =>
      cases ty <;> simp only [guardGo] <;>
        first
          | exact wordShaped_nil
          | exact ih _ hidsr h1
          | exact ih _ hidsr h2

/-- C5 amended: the original claim quantified over every file stem and is
refuted by `c5_counterexample`; the guard IS a valid macro identifier whenever
the stem is identifier-shaped (or empty) and every Identifier block consulted
by the walk has identifier-shaped text (which is what the lexer produces for
unscoped identifiers): every byte is in `[A-Z0-9_]` and the first byte is in
`[A-Z_]`, hence not a digit. -/
theorem c5_guard_valid (chars stem : List Char) (blocks : List Block)
    (hids : ∀ b ∈ blocks, b.type = BKind.identifier → identLike (sliceB chars b) = true)
    (hstem : stemLike stem = true) :
    (CodeGuardIdentifier chars stem blocks).all isMacroChar = true ∧
    isIdentStart ((CodeGuardIdentifier chars stem blocks).headD '_') = true := by
  have hns : wordShaped (CodeGuardNamespaces chars blocks) = true :=
    guardGo_wordShaped chars blocks GMode.top hids (by intro acc h; exact absurd h (by simp))
  unfold stemLike at hstem
  rw [Bool.and_eq_true] at hstem
  have hwhole : wordShaped (CodeGuardNamespaces chars blocks ++ stem ++ "_H".data) = true := by
    rw [List.append_assoc]
    refine wordShaped_append hns (wordShaped_append ?_ (by decide))
    unfold wordShaped
    rw [Bool.and_eq_true]
    exact hstem
  unfold wordShaped at hwhole
  rw [Bool.and_eq_true] at hwhole
  unfold CodeGuardIdentifier
  constructor
  · rw [List.all_eq_true]
    intro c hc
    rw [List.mem_map] at hc
    obtain ⟨a, ha, rfl⟩ := hc
    have : isWordChar a = true := by
      rw [List.all_eq_true] at hwhole
      exact hwhole.1 a ha
    exact toupperC_macro this
  · rcases hg : CodeGuardNamespaces chars blocks ++ stem ++ "_H".data with - | ⟨x, xs⟩
    · simp at hg
    · rw [hg] at hwhole
      simp only [List.map_cons, List.headD_cons]
      exact toupperC_identStart (by simpa using hwhole.2)

theorem c5_guard_valid_witness :
    ((CodeGuardIdentifier "namespace n \x7b \x7d".data "t".data
        [⟨BKind.namespace_keyword, 0, 8⟩, ⟨BKind.empty, 9, 9⟩, ⟨BKind.identifier, 10, 10⟩,
         ⟨BKind.begin_group, 11, 12⟩, ⟨BKind.empty, 13, 13⟩,
         ⟨BKind.end_group, 14, 14⟩]).all isMacroChar = true) ∧
    isIdentStart ((CodeGuardIdentifier "namespace n \x7b \x7d".data "t".data
        [⟨BKind.namespace_keyword, 0, 8⟩, ⟨BKind.empty, 9, 9⟩, ⟨BKind.identifier, 10, 10⟩,
         ⟨BKind.begin_group, 11, 12⟩, ⟨BKind.empty, 13, 13⟩,
         ⟨BKind.end_group, 14, 14⟩]).headD '_') = true :=
  c5_guard_valid "namespace n \x7b \x7d".data "t".data
    [⟨BKind.namespace_keyword, 0, 8⟩, ⟨BKind.empty, 9, 9⟩, ⟨BKind.identifier, 10, 10⟩,
     ⟨BKind.begin_group, 11, 12⟩, ⟨BKind.empty, 13, 13⟩, ⟨BKind.end_group, 14, 14⟩]
    (by decide) (by decide)

/-- What a namespace header contributes to the guard: each Identifier block's
text followed by `_`, other blocks nothing. -/
def nsContrib (chars : List Char) (mid : List Block) : List Char :=
  (mid.map (fun b => if b.type = BKind.identifier then sliceB chars b ++ ['_'] else [])).flatten

/-- Walking blocks inside a namespace header (no begin-group, no statement
terminator among them) appends exactly their identifier texts plus `_` to the
pending name. -/
theorem guardGo_inNS_walk (chars : List Char) :
    ∀ (mid : List Block) (acc : List Char) (tail : List Block),
      (∀ b ∈ mid, b.type ≠ BKind.begin_group ∧ b.type ≠ BKind.statement_terminator) →
      guardGo chars (mid ++ tail) (GMode.inNS acc) =
        guardGo chars tail (GMode.inNS (acc ++ nsContrib chars mid)) := by
  intro mid
  induction mid with
  | nil => intro acc tail _; simp [nsContrib]
  | cons b rest ih =>
    intro acc tail h
    have hb := h b (List.mem_cons_self _ _)
    have hrest : ∀ b ∈ rest, b.type ≠ BKind.begin_group ∧ b.type ≠ BKind.statement_terminator :=
      fun x hx => h x (List.mem_cons_of_mem _ hx)
    rcases b with ⟨ty, bb, bf⟩
    cases ty <;> simp only [List.cons_append, guardGo, List.append_eq] <;>
      first
        | exact absurd rfl hb.1
        | exact absurd rfl hb.2
        | (rw [ih _ _ hrest]; simp [nsContrib, List.append_assoc])

/-- Walking blocks inside the class/struct/enum skip (no begin-group, no
statement terminator among them) changes nothing. -/
theorem guardGo_inSkip_walk (chars : List Char) :
    ∀ (mid : List Block) (tail : List Block),
      (∀ b ∈ mid, b.type ≠ BKind.begin_group ∧ b.type ≠ BKind.statement_terminator) →
      guardGo chars (mid ++ tail) GMode.inSkip = guardGo chars tail GMode.inSkip := by
  intro mid
  induction mid with
  | nil => intro tail _; simp
  | cons b rest ih =>
    intro tail h
    have hb := h b (List.mem_cons_self _ _)
    have hrest : ∀ b ∈ rest, b.type ≠ BKind.begin_group ∧ b.type ≠ BKind.statement_terminator :=
      fun x hx => h x (List.mem_cons_of_mem _ hx)
    rcases b with ⟨ty, bb, bf⟩
    cases ty <;> simp only [List.cons_append, guardGo, List.append_eq] <;>
      first
        | exact absurd rfl hb.1
        | exact absurd rfl hb.2
        | exact ih _ hrest

/-- C6: the guard synthesiser's walk, characterised piece by piece.
1. A namespace keyword whose header ends in a begin-group contributes each
   following Identifier's text plus `_`, then the walk continues after the
   begin-group.
2. A namespace header ending in a statement terminator (forward declaration)
   contributes nothing — the partial name is discarded.
3. A class/struct/enum keyword followed (before any statement terminator) by a
   begin-group stops the walk entirely: nothing after it contributes.
4. A class/struct/enum keyword whose run ends in a statement terminator is
   skipped and the walk continues.
5. In particular, a forward declaration of a class directly inside a namespace
   contributes nothing to the guard.
6. The guard identifier is the uppercase of the walk's result, then the file
   stem, then `_H`. -/
theorem c6_guard_walk :
    (∀ (chars : List Char) (bns : Block) (mid : List Block) (bbg : Block) (rest : List Block),
      bns.type = BKind.namespace_keyword → bbg.type = BKind.begin_group →
      (∀ b ∈ mid, b.type ≠ BKind.begin_group ∧ b.type ≠ BKind.statement_terminator) →
      CodeGuardNamespaces chars (bns :: (mid ++ bbg :: rest)) =
        nsContrib chars mid ++ CodeGuardNamespaces chars rest) ∧
    (∀ (chars : List Char) (bns : Block) (mid : List Block) (bterm : Block) (rest : List Block),
      bns.type = BKind.namespace_keyword → bterm.type = BKind.statement_terminator →
      (∀ b ∈ mid, b.type ≠ BKind.begin_group ∧ b.type ≠ BKind.statement_terminator) →
      CodeGuardNamespaces chars (bns :: (mid ++ bterm :: rest)) =
        CodeGuardNamespaces chars rest) ∧
    (∀ (chars : List Char) (bcls : Block) (mid : List Block) (bbg : Block) (rest : List Block),
      (bcls.type = BKind.class_keyword ∨ bcls.type = BKind.struct_keyword ∨
        bcls.type = BKind.enumeration) →
      bbg.type = BKind.begin_group →
      (∀ b ∈ mid, b.type ≠ BKind.begin_group ∧ b.type ≠ BKind.statement_terminator) →
      CodeGuardNamespaces chars (bcls :: (mid ++ bbg :: rest)) = []) ∧
    (∀ (chars : List Char) (bcls : Block) (mid : List Block) (bterm : Block) (rest : List Block),
      (bcls.type = BKind.class_keyword ∨ bcls.type = BKind.struct_keyword ∨
        bcls.type = BKind.enumeration) →
      bterm.type = BKind.statement_terminator →
      (∀ b ∈ mid, b.type ≠ BKind.begin_group ∧ b.type ≠ BKind.statement_terminator) →
      CodeGuardNamespaces chars (bcls :: (mid ++ bterm :: rest)) =
        CodeGuardNamespaces chars rest) ∧
    (∀ (chars : List Char) (bns bid bbg bcls bcid bterm : Block) (rest : List Block),
      bns.type = BKind.namespace_keyword → bid.type = BKind.identifier →
      bbg.type = BKind.begin_group → bcls.type = BKind.class_keyword →
      bcid.type = BKind.identifier → bterm.type = BKind.statement_terminator →
      CodeGuardNamespaces chars (bns :: bid :: bbg :: bcls :: bcid :: bterm :: rest) =
        CodeGuardNamespaces chars (bns :: bid :: bbg :: rest)) ∧
    (∀ (chars stem : List Char) (blocks : List Block),
      CodeGuardIdentifier chars stem blocks =
        (CodeGuardNamespaces chars blocks ++ stem ++ "_H".data).map toupperC) := by
  refine ⟨?_, ?_, ?_, ?_, ?_, fun chars stem blocks => rfl⟩
  · intro chars bns mid bbg rest hns hbg hmid
    rcases bns with ⟨ty, nb1, nb2⟩
    cases hns
    unfold CodeGuardNamespaces
    simp only [guardGo]
    rw [guardGo_inNS_walk chars mid [] (bbg :: rest) hmid]
    rcases bbg with ⟨tyg, gb1, gb2⟩
    cases hbg
    simp [guardGo]
  · intro chars bns mid bterm rest hns hterm hmid
    rcases bns with ⟨ty, nb1, nb2⟩
    cases hns
    unfold CodeGuardNamespaces
    simp only [guardGo]
    rw [guardGo_inNS_walk chars mid [] (bterm :: rest) hmid]
    rcases bterm with ⟨tyt, tb1, tb2⟩
    cases hterm
    simp [guardGo]
  · intro chars bcls mid bbg rest hcls hbg hmid
    unfold CodeGuardNamespaces
    rcases bcls with ⟨ty, cb1, cb2⟩
    rcases hcls with h | h | h <;> cases h <;>
      (simp only [guardGo]
       rw [guardGo_inSkip_walk chars mid (bbg :: rest) hmid]
       rcases bbg with ⟨tyg, gb1, gb2⟩
       cases hbg
       simp [guardGo])
  · intro chars bcls mid bterm rest hcls hterm hmid
    unfold CodeGuardNamespaces
    rcases bcls with ⟨ty, cb1, cb2⟩
    rcases hcls with h | h | h <;> cases h <;>
      (simp only [guardGo]
       rw [guardGo_inSkip_walk chars mid (bterm :: rest) hmid]
       rcases bterm with ⟨tyt, tb1, tb2⟩
       cases hterm
       simp [guardGo])
  · intro chars bns bid bbg bcls bcid bterm rest h1 h2 h3 h4 h5 h6
    rcases bns with ⟨t1, a1, a2⟩
    rcases bid with ⟨t2, a3, a4⟩
    rcases bbg with ⟨t3, a5, a6⟩
    rcases bcls with ⟨t4, a7, a8⟩
    rcases bcid with ⟨t5, a9, a10⟩
    rcases bterm with ⟨t6, a11, a12⟩
    cases h1; cases h2; cases h3; cases h4; cases h5; cases h6
    unfold CodeGuardNamespaces
    simp [guardGo]

theorem c6_guard_walk_witness :
    CodeGuardNamespaces "namespace n \x7b class C; \x7d".data
      [⟨BKind.namespace_keyword, 0, 8⟩, ⟨BKind.identifier, 10, 10⟩, ⟨BKind.begin_group, 12, 12⟩,
       ⟨BKind.class_keyword, 14, 18⟩, ⟨BKind.identifier, 20, 20⟩,
       ⟨BKind.statement_terminator, 21, 21⟩] =
    CodeGuardNamespaces "namespace n \x7b class C; \x7d".data
      [⟨BKind.namespace_keyword, 0, 8⟩, ⟨BKind.identifier, 10, 10⟩,
       ⟨BKind.begin_group, 12, 12⟩] :=
  c6_guard_walk.2.2.2.2.1 "namespace n \x7b class C; \x7d".data
    ⟨BKind.namespace_keyword, 0, 8⟩ ⟨BKind.identifier, 10, 10⟩ ⟨BKind.begin_group, 12, 12⟩
    ⟨BKind.class_keyword, 14, 18⟩ ⟨BKind.identifier, 20, 20⟩
    ⟨BKind.statement_terminator, 21, 21⟩ [] rfl rfl rfl rfl rfl rfl

theorem Value_ne_nul_of_lt {chars : List Char} {it : Iter} (hnn : nulC ∉ chars)
    (h : it.pos < chars.length) : Value chars it ≠ nulC := by
  unfold Value getC
  rw [List.getD_eq_getElem chars nulC h]
  intro hc
  exact hnn (hc ▸ List.getElem_mem h)

theorem Value_nul_of_ge {chars : List Char} {it : Iter} (h : chars.length ≤ it.pos) :
    Value chars it = nulC := by
  unfold Value getC
  exact List.getD_eq_default chars nulC h

theorem pos_lt_of_Value_ne {chars : List Char} {it : Iter} (h : Value chars it ≠ nulC) :
    it.pos < chars.length := by
  by_contra hc
  exact h (Value_nul_of_ge (by omega))

theorem MoveNext_pos_of_ne {chars : List Char} {it : Iter} (h : Value chars it ≠ nulC) :
    (MoveNext chars it).pos = it.pos + 1 := by
  unfold MoveNext
  rw [if_neg h]

theorem MoveNext_pos_mono (chars : List Char) (it : Iter) :
    it.pos ≤ (MoveNext chars it).pos := by
  unfold MoveNext
  split <;> simp

theorem MoveNext_le_len {chars : List Char} {it : Iter} (h : it.pos ≤ chars.length) :
    (MoveNext chars it).pos ≤ chars.length := by
  unfold MoveNext
  split
  · exact h
  · simp only
    have := pos_lt_of_Value_ne (by assumption)
    omega

theorem advance_pos_exact {chars : List Char} (hnn : nulC ∉ chars) :
    ∀ (k : Nat) (it : Iter), it.pos + k ≤ chars.length →
      (advance chars it k).pos = it.pos + k := by
  intro k
  induction k with
  | zero => intro it _; simp [advance]
  | succ n ih =>
    intro it h
    rw [advance]
    have hlt : it.pos < chars.length := by omega
    have hmv := MoveNext_pos_of_ne (Value_ne_nul_of_lt hnn hlt)
    have := ih (MoveNext chars it) (by omega)
    omega

theorem advance_pos_mono (chars : List Char) :
    ∀ (k : Nat) (it : Iter), it.pos ≤ (advance chars it k).pos := by
  intro k
  induction k with
  | zero => intro it; simp [advance]
  | succ n ih =>
    intro it
    rw [advance]
    exact le_trans (MoveNext_pos_mono chars it) (ih _)

theorem advance_le_len {chars : List Char} :
    ∀ (k : Nat) (it : Iter), it.pos ≤ chars.length →
      (advance chars it k).pos ≤ chars.length := by
  intro k
  induction k with
  | zero => intro it h; simpa [advance] using h
  | succ n ih =>
    intro it h
    rw [advance]
    exact ih _ (MoveNext_le_len h)

theorem findPatLine_bound {pat : List Char} :
    ∀ {l : List Char} {k : Nat}, findPatLine l pat = some k → k + pat.length ≤ l.length := by
  intro l
  induction l with
  | nil =>
    intro k h
    rw [findPatLine] at h
    split at h
    · simp only [Option.some.injEq] at h
      subst h
      have hp : pat <+: ([] : List Char) := by
        rwa [← List.isPrefixOf_iff_prefix]
      simpa using hp.length_le
    · simp at h
  | cons c rest ih =>
    intro k h
    rw [findPatLine] at h
    split at h
    · have hp : pat <+: (c :: rest) := by
        rwa [← List.isPrefixOf_iff_prefix]
      have := hp.length_le
      simp only [Option.some.injEq] at h
      omega
    · split at h
      · simp at h
      · rw [Option.map_eq_some'] at h
        obtain ⟨k', hk', rfl⟩ := h
        have := ih hk'
        simp only [List.length_cons]
        omega

theorem findPatLine_prefix {pat : List Char} :
    ∀ {l : List Char} {k : Nat}, findPatLine l pat = some k → pat <+: l.drop k := by
  intro l
  induction l with
  | nil =>
    intro k h
    rw [findPatLine] at h
    split at h
    · simp only [Option.some.injEq] at h
      subst h
      rwa [← List.isPrefixOf_iff_prefix]
    · simp at h
  | cons c rest ih =>
    intro k h
    rw [findPatLine] at h
    split at h
    · simp only [Option.some.injEq] at h
      subst h
      rwa [← List.isPrefixOf_iff_prefix]
    · split at h
      · simp at h
      · rw [Option.map_eq_some'] at h
        obtain ⟨k', hk', rfl⟩ := h
        simpa using ih hk'

theorem findPatLine_no_nl {pat : List Char} :
    ∀ {l : List Char} {k : Nat}, findPatLine l pat = some k → ∀ c ∈ l.take k, c ≠ '\n' := by
  intro l
  induction l with
  | nil => intro k h c hc _; simp at hc
  | cons x rest ih =>
    intro k h
    rw [findPatLine] at h
    split at h
    · simp only [Option.some.injEq] at h
      subst h
      intro c hc
      simp at hc
    · split at h
      · simp at h
      · rw [Option.map_eq_some'] at h
        obtain ⟨k', hk', rfl⟩ := h
        intro c hc
        simp only [List.take_succ_cons, List.mem_cons] at hc
        rcases hc with rfl | hc
        · intro hcc
          exact absurd hcc (by assumption)
        · exact ih hk' c hc

theorem findSub_prefix {pat : List Char} :
    ∀ {l : List Char} {m : Nat}, findSub l pat = some m → pat <+: l.drop m := by
  intro l
  induction l with
  | nil =>
    intro m h
    rw [findSub] at h
    split at h
    · simp only [Option.some.injEq] at h
      subst h
      rwa [← List.isPrefixOf_iff_prefix]
    · simp at h
  | cons c rest ih =>
    intro m h
    rw [findSub] at h
    split at h
    · simp only [Option.some.injEq] at h
      subst h
      rwa [← List.isPrefixOf_iff_prefix]
    · rw [Option.map_eq_some'] at h
      obtain ⟨m', hm', rfl⟩ := h
      simpa using ih hm'

theorem findSub_min {pat : List Char} :
    ∀ {l : List Char} {m : Nat}, findSub l pat = some m →
      ∀ j < m, ¬ (pat <+: l.drop j) := by
  intro l
  induction l with
  | nil =>
    intro m h j hj
    rw [findSub] at h
    split at h
    · simp only [Option.some.injEq] at h
      omega
    · simp at h
  | cons c rest ih =>
    intro m h j hj
    rw [findSub] at h
    split at h
    · simp only [Option.some.injEq] at h
      omega
    · rw [Option.map_eq_some'] at h
      obtain ⟨m', hm', rfl⟩ := h
      cases j with
      | zero =>
        intro hp
        rw [← List.isPrefixOf_iff_prefix] at hp
        simp_all
      | succ j' =>
        simpa using ih hm' j' (by omega)

/-- If the first occurrence of `pat` lies beyond a newline, the line-bounded
search fails. -/
theorem findPatLine_none_of_nl {l pat : List Char} {m : Nat}
    (hf : findSub l pat = some m) (hnl : '\n' ∈ l.take m) :
    findPatLine l pat = Option.none := by
  rcases hk : findPatLine l pat with - | k
  · rfl
  · exfalso
    have hpk := findPatLine_prefix hk
    have hmk : m ≤ k := by
      by_contra hc
      exact findSub_min hf k (by omega) hpk
    have htt : l.take m = (l.take k).take m := by
      rw [List.take_take, Nat.min_eq_left hmk]
    rw [htt] at hnl
    exact findPatLine_no_nl hk '\n' (List.mem_of_mem_take hnl) rfl

theorem idxOfNL_le (l : List Char) : idxOfNL l ≤ l.length := by
  unfold idxOfNL
  exact (List.takeWhile_prefix _).length_le

theorem idxOfNL_add :
    ∀ (m : Nat) (l : List Char), m ≤ l.length → (∀ c ∈ l.take m, c ≠ '\n') →
      idxOfNL l = m + idxOfNL (l.drop m) := by
  intro m
  induction m with
  | zero => intro l _ _; simp
  | succ n ih =>
    intro l hm h
    cases l with
    | nil => simp at hm
    | cons c rest =>
      have hc : c ≠ '\n' := h c (by simp)
      have := ih rest (by simpa using hm)
        (fun x hx => h x (by simp [List.take_succ_cons, hx]))
      unfold idxOfNL at this ⊢
      rw [List.takeWhile_cons, if_pos (by simpa using hc)]
      simp only [List.length_cons, List.drop_succ_cons]
      omega

theorem no_nl_take_add {l : List Char} {m n : Nat}
    (h1 : ∀ c ∈ l.take m, c ≠ '\n') (h2 : ∀ c ∈ (l.drop m).take n, c ≠ '\n') :
    ∀ c ∈ l.take (m + n), c ≠ '\n' := by
  intro c hc
  rw [List.take_add] at hc
  rcases List.mem_append.mp hc with h | h
  · exact h1 c h
  · exact h2 c h

theorem no_nl_of_prefix {l pat : List Char} (hp : pat <+: l) (hnl : ∀ c ∈ pat, c ≠ '\n') :
    ∀ c ∈ l.take pat.length, c ≠ '\n' := by
  have ht : l.take pat.length = pat := (List.prefix_iff_eq_take.mp hp).symm
  rw [ht]
  exact hnl

theorem MovePrevious_pos {chars : List Char} {it : Iter} (h : it.pos ≠ 0) :
    (MovePrevious chars it).pos = it.pos - 1 := by
  unfold MovePrevious
  rw [if_neg h]

/-- C8 amended: when a directive line contains `/*`:
1. If the comment also closes on the same line (the second search succeeds),
   the directive consumes through the end of the line — comment included — so
   the directive block does NOT end before the `/*` and no separate comment
   block is produced.
2. If the comment does not close on the same line, the directive ends exactly
   at the `/*` (iterator left at the `/`), so the comment is lexed separately.
3. Concretely, on `#a /*b\n*/ c\nd;` the lexer emits the directive `[0, 2]`
   (just before the `/*`) followed by a separate comment block `[3, 9]`. -/
theorem c8_directive_split :
    (∀ (chars : List Char) (it : Iter) (k j : Nat), nulC ∉ chars →
      Value chars it ≠ nulC →
      findPatLine (chars.drop (it.pos + 1)) ['/', '*'] = some k →
      findPatLine (chars.drop (it.pos + 1 + (k + 2))) ['*', '/'] = some j →
      (ParseDirective chars it).pos = it.pos + 1 + idxOfNL (chars.drop (it.pos + 1))) ∧
    (∀ (chars : List Char) (it : Iter) (k : Nat), nulC ∉ chars →
      Value chars it ≠ nulC →
      findPatLine (chars.drop (it.pos + 1)) ['/', '*'] = some k →
      findPatLine (chars.drop (it.pos + 1 + (k + 2))) ['*', '/'] = Option.none →
      (ParseDirective chars it).pos = it.pos + 1 + k) ∧
    parse "#a /*b\n*/ c\nd;".data = LexResult.ok
      [⟨BKind.directive, 0, 2⟩, ⟨BKind.comment, 3, 9⟩, ⟨BKind.identifier, 10, 10⟩,
       ⟨BKind.empty, 11, 11⟩, ⟨BKind.identifier, 12, 12⟩,
       ⟨BKind.statement_terminator, 13, 13⟩] := by
  refine ⟨?_, ?_, by rfl⟩
  · intro chars it k j hnn hv h1 h2
    have hb1 := findPatLine_bound h1
    have hb2 := findPatLine_bound h2
    rw [List.length_drop] at hb1 hb2
    simp only [List.length_cons, List.length_nil] at hb1 hb2
    have hmv : (MoveNext chars it).pos = it.pos + 1 := MoveNext_pos_of_ne hv
    have hlen1 : it.pos + 1 + (k + 2) ≤ chars.length := by omega
    simp only [ParseDirective]
    rw [hmv, h1]
    dsimp only
    have hadv2 : (advance chars (MoveNext chars it) (k + 2)).pos = it.pos + 1 + (k + 2) := by
      rw [advance_pos_exact hnn (k + 2) (MoveNext chars it) (by omega), hmv]
    rw [hadv2, h2]
    dsimp only
    have hlen3 : it.pos + 1 + (k + 2) + (j + 2) ≤ chars.length := by omega
    have hadv3 : (advance chars (advance chars (MoveNext chars it) (k + 2)) (j + 2)).pos =
        it.pos + 1 + (k + 2) + (j + 2) := by
      rw [advance_pos_exact hnn (j + 2) _ (by omega), hadv2]
    rw [hadv3]
    have hidx := idxOfNL_le (chars.drop (it.pos + 1 + (k + 2) + (j + 2)))
    rw [List.length_drop] at hidx
    have hadv4 : (advance chars (advance chars (advance chars (MoveNext chars it) (k + 2)) (j + 2))
        (idxOfNL (chars.drop (it.pos + 1 + (k + 2) + (j + 2))))).pos =
        it.pos + 1 + (k + 2) + (j + 2) + idxOfNL (chars.drop (it.pos + 1 + (k + 2) + (j + 2))) := by
      rw [advance_pos_exact hnn _ _ (by omega), hadv3]
    rw [hadv4]
    have hdd : chars.drop (it.pos + 1 + (k + 2)) = (chars.drop (it.pos + 1)).drop (k + 2) := by
      rw [List.drop_drop]
      try congr 1
      try omega
    have hdd3 : chars.drop (it.pos + 1 + (k + 2) + (j + 2)) =
        (chars.drop (it.pos + 1)).drop (k + 2 + j + 2) := by
      rw [List.drop_drop]
      try congr 1
      try omega
    have hA : ∀ c ∈ (chars.drop (it.pos + 1)).take k, c ≠ '\n' := findPatLine_no_nl h1
    have hB : ∀ c ∈ ((chars.drop (it.pos + 1)).drop k).take 2, c ≠ '\n' :=
      no_nl_of_prefix ( findPatLine_prefix h1) (by decide)
    have hAB : ∀ c ∈ (chars.drop (it.pos + 1)).take (k + 2), c ≠ '\n' := no_nl_take_add hA hB
    have hC : ∀ c ∈ ((chars.drop (it.pos + 1)).drop (k + 2)).take j, c ≠ '\n' := by
      rw [← hdd]
      exact findPatLine_no_nl h2
    have hABC : ∀ c ∈ (chars.drop (it.pos + 1)).take (k + 2 + j), c ≠ '\n' :=
      no_nl_take_add hAB hC
    have hD : ∀ c ∈ ((chars.drop (it.pos + 1)).drop (k + 2 + j)).take 2, c ≠ '\n' := by
      have hpre := findPatLine_prefix h2
      rw [hdd, List.drop_drop] at hpre
      exact no_nl_of_prefix hpre (by decide)
    have hABCD : ∀ c ∈ (chars.drop (it.pos + 1)).take (k + 2 + j + 2), c ≠ '\n' :=
      no_nl_take_add hABC hD
    have hsum := idxOfNL_add (k + 2 + j + 2) (chars.drop (it.pos + 1))
      (by rw [List.length_drop]; omega) hABCD
    rw [hsum, ← hdd3]
    omega
  · intro chars it k hnn hv h1 h2
    have hb1 := findPatLine_bound h1
    rw [List.length_drop] at hb1
    simp only [List.length_cons, List.length_nil] at hb1
    have hmv : (MoveNext chars it).pos = it.pos + 1 := MoveNext_pos_of_ne hv
    simp only [ParseDirective]
    rw [hmv, h1]
    dsimp only
    have hadv2 : (advance chars (MoveNext chars it) (k + 2)).pos = it.pos + 1 + (k + 2) := by
      rw [advance_pos_exact hnn (k + 2) (MoveNext chars it) (by omega), hmv]
    rw [hadv2, h2]
    dsimp only
    rw [MovePrevious_pos (by rw [MovePrevious_pos (by rw [hadv2]; omega), hadv2]; omega),
      MovePrevious_pos (by rw [hadv2]; omega), hadv2]
    omega

theorem isRawDelimChar_ne_nl {c : Char} (h : isRawDelimChar c = true) : c ≠ '\n' := by
  intro hc
  subst hc
  exact absurd h (by decide)

/-- Successful raw-string recognition never spans a line break: every byte of
the match (delimiter, `(`, content, `)`, delimiter, `"`) is on one line. -/
theorem rawLen_no_nl :
    ∀ (l : List Char) (k : Nat), rawLen l = some k → ∀ c ∈ l.take k, c ≠ '\n' := by
  intro l k h
  unfold rawLen at h
  dsimp only at h
  split at h
  · simp at h
  · split at h
    case _ rest hdrop =>
      split at h
      case _ j hfind =>
        · simp only [Option.some.injEq] at h
          subst h
          have hdl : l.take (l.takeWhile isRawDelimChar).length = l.takeWhile isRawDelimChar :=
            (List.prefix_iff_eq_take.mp (List.takeWhile_prefix _)).symm
          have hclose := findPatLine_prefix hfind
          have hcloselen : (')' :: (l.takeWhile isRawDelimChar ++ ['"'])).length =
              (l.takeWhile isRawDelimChar).length + 2 := by simp
          have hclosetake : (rest.drop j).take ((l.takeWhile isRawDelimChar).length + 2) =
              ')' :: (l.takeWhile isRawDelimChar ++ ['"']) := by
            rw [← hcloselen]
            exact (List.prefix_iff_eq_take.mp hclose).symm
          intro c hc
          rw [show (l.takeWhile isRawDelimChar).length + 1 + j + 1 +
              (l.takeWhile isRawDelimChar).length + 1 =
              (l.takeWhile isRawDelimChar).length +
                (1 + (j + ((l.takeWhile isRawDelimChar).length + 2))) from by omega,
            List.take_add, hdl, hdrop] at hc
          rcases List.mem_append.mp hc with hcd | hcrest
          · exact isRawDelimChar_ne_nl (List.mem_takeWhile_imp hcd)
          · rw [show 1 + (j + ((l.takeWhile isRawDelimChar).length + 2)) =
                (j + ((l.takeWhile isRawDelimChar).length + 2)) + 1 from by omega,
              List.take_succ_cons, List.take_add, hclosetake] at hcrest
            rcases List.mem_cons.mp hcrest with rfl | hcc
            · decide
            · rcases List.mem_append.mp hcc with hcj | hccl
              · exact findPatLine_no_nl hfind c hcj
              · rcases List.mem_cons.mp hccl with rfl | hcc2
                · decide
                · rcases List.mem_append.mp hcc2 with hcd2 | hcq
                  · exact isRawDelimChar_ne_nl (List.mem_takeWhile_imp hcd2)
                  · rcases List.mem_singleton.mp hcq with rfl
                    decide
      case _ => simp at h
    case _ => simp at h

/-- When the first occurrence of the closing `)delim"` lies beyond a newline
(i.e. the raw string's real content contains a line break), the single-line
raw-string pattern fails. -/
theorem rawLen_none {l rest : List Char} {m : Nat}
    (hopen : l.drop (l.takeWhile isRawDelimChar).length = '(' :: rest)
    (h16 : (l.takeWhile isRawDelimChar).length ≤ 16)
    (hfind : findSub rest (')' :: (l.takeWhile isRawDelimChar ++ ['"'])) = some m)
    (hnl : '\n' ∈ rest.take m) :
    rawLen l = Option.none := by
  unfold rawLen
  dsimp only
  rw [if_neg (by omega), hopen]
  show (match findPatLine rest (')' :: (List.takeWhile isRawDelimChar l ++ ['"'])) with
    | some j =>
      some ((List.takeWhile isRawDelimChar l).length + 1 + j + 1 +
        (List.takeWhile isRawDelimChar l).length + 1)
    | Option.none => Option.none) = Option.none
  rw [findPatLine_none_of_nl hfind hnl]

/-- C10: raw-string recognition is single-line.
1. Any successful raw-string match spans no newline.
2. If the raw string's content, up to the first occurrence of its closing
   `)delim"`, contains a newline, ParseString throws `Invalid raw string`
   reported at the opening quote.
3. Concretely, `R"(a\nb)"` is rejected with that error on line 1. -/
theorem c10_raw_single_line :
    (∀ (l : List Char) (k : Nat), rawLen l = some k → ∀ c ∈ l.take k, c ≠ '\n') ∧
    (∀ (chars : List Char) (it : Iter) (rest : List Char) (m : Nat),
      PreviousValue chars it = 'R' → Value chars it = '"' →
      (chars.drop (it.pos + 1)).drop
          ((chars.drop (it.pos + 1)).takeWhile isRawDelimChar).length = '(' :: rest →
      ((chars.drop (it.pos + 1)).takeWhile isRawDelimChar).length ≤ 16 →
      findSub rest (')' :: ((chars.drop (it.pos + 1)).takeWhile isRawDelimChar ++ ['"'])) =
        some m →
      '\n' ∈ rest.take m →
      ParseString chars it = .error (mkError "Invalid raw string" chars it)) ∧
    parse "R\"(a\nb)\"".data = LexResult.err ⟨"Invalid raw string", 1, "\"(a".data⟩ := by
  refine ⟨rawLen_no_nl, ?_, by rfl⟩
  intro chars it rest m hR hq hopen h16 hfind hnl
  have hmv : (MoveNext chars it).pos = it.pos + 1 :=
    MoveNext_pos_of_ne (by rw [hq]; decide)
  unfold ParseString
  rw [if_pos hR, hmv, rawLen_none hopen h16 hfind hnl]

theorem c10_raw_single_line_witness :
    (∀ c ∈ ("(hi)\"x".data).take 5, c ≠ '\n') ∧
    ParseString "R\"(a\nb)\"".data ⟨1, 1⟩ =
      .error (mkError "Invalid raw string" "R\"(a\nb)\"".data ⟨1, 1⟩) :=
  ⟨c10_raw_single_line.1 "(hi)\"x".data 5 (by rfl),
    c10_raw_single_line.2.1 "R\"(a\nb)\"".data ⟨1, 1⟩ "a\nb)\"".data 3
      (by decide) (by decide) (by rfl) (by decide) (by rfl) (by decide)⟩

theorem lastSentinelB_cons {cs : List Container} (c : Container)
    (h : lastSentinelB cs = true) : lastSentinelB (c :: cs) = true := by
  cases cs with
  | nil => exact absurd h (by decide)
  | cons x xs => exact h

theorem lastSentinelB_tail {c : Container} {cs : List Container}
    (h : lastSentinelB (c :: cs) = true) (hne : cs ≠ []) : lastSentinelB cs = true := by
  cases cs with
  | nil => exact absurd rfl hne
  | cons x xs => exact h

theorem lastSentinelB_pop {c : Container} {cs : List Container}
    (h : lastSentinelB (c :: cs) = true) (htype : c.type ≠ CKind.none) :
    cs ≠ [] ∧ lastSentinelB cs = true := by
  cases cs with
  | nil =>
    exfalso
    apply htype
    simpa [lastSentinelB] using h
  | cons x xs => exact ⟨by simp, h⟩

theorem lastSentinelB_modifyHead {c c' : Container} {cs : List Container}
    (htype : c'.type = c.type) (h : lastSentinelB (c :: cs) = true) :
    lastSentinelB (c' :: cs) = true := by
  cases cs with
  | nil => simpa [lastSentinelB, htype] using h
  | cons x xs => exact h

theorem lastSentinelB_bumpBraces {cs : List Container} (h : lastSentinelB cs = true) :
    lastSentinelB (bumpBraces cs) = true := by
  cases cs with
  | nil => exact h
  | cons c rest =>
    exact @lastSentinelB_modifyHead c { c with braces := c.braces + 1 } rest rfl h

theorem lastSentinelB_decBraces {cs : List Container} (h : lastSentinelB cs = true) :
    lastSentinelB (decBraces cs) = true := by
  cases cs with
  | nil => exact h
  | cons c rest =>
    exact @lastSentinelB_modifyHead c { c with braces := c.braces - 1 } rest rfl h

theorem lastSentinelB_bumpParen {cs : List Container} (h : lastSentinelB cs = true) :
    lastSentinelB (bumpParen cs) = true := by
  cases cs with
  | nil => exact h
  | cons c rest =>
    exact @lastSentinelB_modifyHead c { c with parenthesis := c.parenthesis + 1 } rest rfl h

theorem lastSentinelB_decParen {cs : List Container} (h : lastSentinelB cs = true) :
    lastSentinelB (decParen cs) = true := by
  cases cs with
  | nil => exact h
  | cons c rest =>
    exact @lastSentinelB_modifyHead c { c with parenthesis := c.parenthesis - 1 } rest rfl h

theorem insertAppend_containers (st : PState) (ty : BKind) (beg ctp : Nat) (bl : List Block) :
    (insertAppend st ty beg ctp bl).containers = st.containers := by
  unfold insertAppend
  dsimp only
  split <;> (try split) <;> rfl

theorem InsertCodeBlock_containers (st : PState) (ty : BKind) (beg : Nat) :
    (InsertCodeBlock st ty beg).containers = st.containers := by
  unfold InsertCodeBlock
  split
  · exact insertAppend_containers st ty beg 0 []
  · split
    · rfl
    · exact insertAppend_containers st ty beg _ _

theorem finishStep_containers (chars : List Char) (beg : Nat) (st' : PState) (ty : BKind) :
    (finishStep chars beg st' ty).containers = st'.containers := by
  unfold finishStep
  split
  · rfl
  · exact InsertCodeBlock_containers st' ty beg

/-- When the top of a decremented stack is an initialisation list (or any
non-sentinel type), the conditional pop keeps the stack sentinel-bottomed. -/
theorem lastSentinelB_condPop {cs : List Container} (b : Bool)
    (h : lastSentinelB cs = true)
    (htype : (cs.headD defaultContainer).type ≠ CKind.none) :
    lastSentinelB (if b then cs.tail else cs) = true := by
  cases b
  · simpa using h
  · simp only [if_pos rfl]
    cases cs with
    | nil =>
      exact absurd (show ((([] : List Container)).headD defaultContainer).type = CKind.none
        from rfl) htype
    | cons c rest =>
      exact (lastSentinelB_pop h (by simpa using htype)).2

theorem lastSentinelB_tail_of_len {cs : List Container} (hlen : 1 < cs.length)
    (h : lastSentinelB cs = true) : lastSentinelB cs.tail = true := by
  cases cs with
  | nil => simp at hlen
  | cons c rest =>
    cases rest with
    | nil => simp at hlen
    | cons x xs => exact lastSentinelB_tail h (by simp)

/-- A pop guarded by a condition that implies the stack still has at least two
frames keeps the stack sentinel-bottomed. -/
theorem lastSentinelB_lenPop {cs : List Container} (b : Bool)
    (hb : b = true → 1 < cs.length) (h : lastSentinelB cs = true) :
    lastSentinelB (if b then cs.tail else cs) = true := by
  cases b
  · simpa using h
  · simp only [if_pos rfl]
    exact lastSentinelB_tail_of_len (hb rfl) h

theorem stepOk_finish (chars : List Char) (beg : Nat) (st' : PState) (ty : BKind)
    (d : List Container) (h : lastSentinelB st'.containers = true) :
    lastSentinelB (stepContainers (Except.ok (finishStep chars beg st' ty)) d) = true := by
  show lastSentinelB (finishStep chars beg st' ty).containers = true
  rw [finishStep_containers]
  exact h

theorem stack_lexStep (chars : List Char) (st : PState)
    (hs : lastSentinelB st.containers = true) :
    lastSentinelB (stepContainers (lexStep chars st) st.containers) = true := by
  unfold lexStep
  dsimp only
  by_cases h1 : Value chars st.it = quoteC
  · rw [if_pos h1]
    split
    · exact hs
    · exact stepOk_finish _ _ _ _ _ hs
  rw [if_neg h1]
  by_cases h2 : Value chars st.it = '"'
  · rw [if_pos h2]
    split
    · exact hs
    · exact stepOk_finish _ _ _ _ _ hs
  rw [if_neg h2]
  by_cases h3 : Value chars st.it = '#'
  · rw [if_pos h3]
    exact stepOk_finish _ _ _ _ _ hs
  rw [if_neg h3]
  by_cases h4 : Value chars st.it = ';'
  · rw [if_pos h4]
    exact stepOk_finish _ _ _ _ _ hs
  rw [if_neg h4]
  by_cases h5 : Value chars st.it = Char.ofNat 123
  · rw [if_pos h5]
    split
    · exact stepOk_finish _ _ _ _ _ (lastSentinelB_bumpBraces hs)
    · exact stepOk_finish _ _ _ _ _ (lastSentinelB_cons _ hs)
  rw [if_neg h5]
  by_cases h6 : Value chars st.it = Char.ofNat 125
  · rw [if_pos h6]
    by_cases hb : (st.containers.headD defaultContainer).braces = 0
    · rw [if_pos hb]
      exact hs
    · rw [if_neg hb]
      by_cases htop : ((decBraces st.containers).headD defaultContainer).type =
          CKind.initialization_list
      · rw [if_pos htop]
        exact stepOk_finish _ _ _ _ _
          (lastSentinelB_condPop _ (lastSentinelB_decBraces hs) (by rw [htop]; decide))
      · rw [if_neg htop]
        exact stepOk_finish _ _ _ _ _
          (lastSentinelB_lenPop _
            (fun hbe => by
              rw [Bool.and_eq_true] at hbe
              exact of_decide_eq_true hbe.2)
            (lastSentinelB_decBraces hs))
  rw [if_neg h6]
  by_cases h7 : Value chars st.it = '/'
  · rw [if_pos h7]
    split
    · exact hs
    · exact stepOk_finish _ _ _ _ _ hs
    · exact stepOk_finish _ _ _ _ _ hs
  rw [if_neg h7]
  by_cases h8 : Value chars st.it = '('
  · rw [if_pos h8]
    split <;> (repeat' split) <;>
      exact stepOk_finish _ _ _ _ _ (lastSentinelB_bumpParen hs)
  rw [if_neg h8]
  by_cases h9 : Value chars st.it = ')'
  · rw [if_pos h9]
    by_cases hp : (st.containers.headD defaultContainer).parenthesis = 0
    · rw [if_pos hp]
      exact hs
    · rw [if_neg hp]
      by_cases htop : ((decParen st.containers).headD defaultContainer).type =
          CKind.initialization_list
      · rw [if_pos htop]
        exact stepOk_finish _ _ _ _ _
          (lastSentinelB_condPop _ (lastSentinelB_decParen hs) (by rw [htop]; decide))
      · rw [if_neg htop]
        exact stepOk_finish _ _ _ _ _ (lastSentinelB_decParen hs)
  rw [if_neg h9]
  by_cases h10 : Value chars st.it = ','
  · rw [if_pos h10]
    split
    · exact stepOk_finish _ _ _ _ _ hs
    · split
      · split
        · exact stepOk_finish _ _ _ _ _ (lastSentinelB_cons _ hs)
        · exact stepOk_finish _ _ _ _ _ hs
      · exact stepOk_finish _ _ _ _ _ hs
  rw [if_neg h10]
  by_cases h11 : Value chars st.it = ':'
  · rw [if_pos h11]
    split
    · exact stepOk_finish _ _ _ _ _ hs
    · split
      · exact stepOk_finish _ _ _ _ _ (lastSentinelB_cons _ hs)
      · split
        · exact stepOk_finish _ _ _ _ _ hs
        · exact stepOk_finish _ _ _ _ _ hs
  rw [if_neg h11]
  by_cases h12 : isIdentStart (Value chars st.it)
  · rw [if_pos h12]
    split
    · exact stepOk_finish _ _ _ _ _ hs
    · split
      · exact stepOk_finish _ _ _ _ _ hs
      · split
        · exact stepOk_finish _ _ _ _ _ hs
        · split
          · exact stepOk_finish _ _ _ _ _ hs
          · exact stepOk_finish _ _ _ _ _ hs
  rw [if_neg h12]
  by_cases h13 : isSpaceC (Value chars st.it)
  · rw [if_pos h13]
    exact stepOk_finish _ _ _ _ _ hs
  rw [if_neg h13]
  exact stepOk_finish _ _ _ _ _ hs

theorem lastSentinelB_ne_nil {cs : List Container} (h : lastSentinelB cs = true) :
    cs ≠ [] := by
  intro he
  subst he
  exact absurd h (by decide)

/-- Popping the head of a stack whose head is not the sentinel type keeps the
stack sentinel-bottomed. -/
theorem lastSentinelB_popTail {cs : List Container}
    (h : lastSentinelB cs = true)
    (htype : (cs.headD defaultContainer).type ≠ CKind.none) :
    lastSentinelB cs.tail = true := by
  cases cs with
  | nil =>
    exact absurd (show ((([] : List Container)).headD defaultContainer).type = CKind.none
      from rfl) htype
  | cons c rest => exact (lastSentinelB_pop h (by simpa using htype)).2

theorem decBraces_head_type (cs : List Container) :
    ((decBraces cs).headD defaultContainer).type = (cs.headD defaultContainer).type := by
  cases cs <;> rfl

theorem stack_ProcessContainer (chars : List Char) (bs : List Block) :
    ∀ (st : EState) (identifier : List Char),
      lastSentinelB st.containers = true →
      lastSentinelB (ProcessContainer chars st identifier bs).1.containers = true := by
  induction bs with
  | nil =>
    intro st identifier hs
    exact hs
  | cons b rest ih =>
    intro st identifier hs
    unfold ProcessContainer
    dsimp only
    split <;>
      first
        | exact ih _ _ hs
        | exact lastSentinelB_cons _ hs
        | exact hs

theorem stack_FunctionBody (chars : List Char) (bs : List Block) :
    ∀ (st : EState), lastSentinelB st.containers = true →
      lastSentinelB (FunctionBody chars st bs).1.containers = true := by
  induction bs with
  | nil =>
    intro st hs
    exact hs
  | cons b rest ih =>
    intro st hs
    unfold FunctionBody
    dsimp only
    by_cases htop : (st.containers.headD defaultContainer).type = CKind.function
    · rw [if_pos htop]
      split
      · exact ih _ (lastSentinelB_bumpBraces hs)
      · by_cases hz : ((decBraces st.containers).headD defaultContainer).braces = 0
        · rw [if_pos hz]
          exact ih _ (lastSentinelB_popTail (lastSentinelB_decBraces hs)
            (by rw [decBraces_head_type, htop]; decide))
        · rw [if_neg hz]
          exact ih _ (lastSentinelB_decBraces hs)
      all_goals exact ih _ hs
    · rw [if_neg htop]
      exact hs

theorem stack_FunctionSig (chars : List Char) (bs : List Block) :
    ∀ (st : EState) (function_name fn : List Char),
      lastSentinelB st.containers = true →
      lastSentinelB (FunctionSig chars st function_name fn bs).1.containers = true := by
  induction bs with
  | nil =>
    intro st f g hs
    exact hs
  | cons b rest ih =>
    intro st f g hs
    unfold FunctionSig
    dsimp only
    split <;>
      first
        | exact stack_FunctionBody chars rest _ (lastSentinelB_cons _ hs)
        | exact hs
        | exact ih _ _ _ hs

theorem stack_emitLoop (chars : List Char) (fuel : Nat) :
    ∀ (st : EState) (bs : List Block),
      lastSentinelB st.containers = true →
      lastSentinelB (emitLoop chars fuel st bs).containers = true := by
  induction fuel with
  | zero =>
    intro st bs hs
    cases bs <;> exact hs
  | succ fuel ih =>
    intro st bs hs
    cases bs with
    | nil => exact hs
    | cons b rest =>
      unfold emitLoop
      dsimp only
      split <;>
        first
          | exact ih _ _ hs
          | exact ih _ _ (stack_ProcessContainer chars rest _ _ hs)
          | exact ih _ _ (stack_FunctionSig chars rest _ _ _ hs)
          | exact ih _ _ (lastSentinelB_bumpBraces hs)
          | exact ih _ _ (lastSentinelB_lenPop _
              (fun hbe => by
                rw [Bool.and_eq_true] at hbe
                exact of_decide_eq_true hbe.2)
              (lastSentinelB_decBraces hs))

/-- C9: the container stack always holds at least one frame, with the sentinel
`None` frame at the bottom: the initial lexer state satisfies the invariant, a
sentinel-bottomed stack is non-empty, every lexer step (in particular the `\x7d`
and `)` handlers, whose pops are guarded) preserves the invariant, and so do
the emitter body-routing loop and the main emission loop (whose `EndGroup`
pops are guarded by the brace count and, respectively, the function-frame type
and the stack length). -/
theorem c9_stack_invariant :
    (lastSentinelB initPState.containers = true) ∧
    (∀ (cs : List Container), lastSentinelB cs = true → cs ≠ []) ∧
    (∀ (chars : List Char) (st : PState), lastSentinelB st.containers = true →
      lastSentinelB (stepContainers (lexStep chars st) st.containers) = true) ∧
    (∀ (chars : List Char) (bs : List Block) (st : EState),
      lastSentinelB st.containers = true →
      lastSentinelB (FunctionBody chars st bs).1.containers = true) ∧
    (∀ (chars : List Char) (fuel : Nat) (st : EState) (bs : List Block),
      lastSentinelB st.containers = true →
      lastSentinelB (emitLoop chars fuel st bs).containers = true) :=
  ⟨rfl,
   fun _ h => lastSentinelB_ne_nil h,
   stack_lexStep,
   fun chars bs st hs => stack_FunctionBody chars bs st hs,
   fun chars fuel st bs hs => stack_emitLoop chars fuel st bs hs⟩

theorem c9_stack_invariant_witness :
    (lastSentinelB initPState.containers = true) ∧
    initPState.containers ≠ [] ∧
    lastSentinelB (stepContainers (lexStep "a;".data initPState) initPState.containers) = true ∧
    lastSentinelB (FunctionBody "a;".data
      ⟨⟨[], [], []⟩, [Container.mkT CKind.none], CKind.none⟩
      [Block.mk BKind.identifier 0 0]).1.containers = true ∧
    lastSentinelB (emitLoop "a;".data 2
      ⟨⟨[], [], []⟩, [Container.mkT CKind.none], CKind.none⟩
      [Block.mk BKind.identifier 0 0]).containers = true :=
  ⟨c9_stack_invariant.1,
   c9_stack_invariant.2.1 initPState.containers c9_stack_invariant.1,
   c9_stack_invariant.2.2.1 "a;".data initPState c9_stack_invariant.1,
   c9_stack_invariant.2.2.2.1 "a;".data [Block.mk BKind.identifier 0 0] _ (by decide),
   c9_stack_invariant.2.2.2.2 "a;".data 2 _ [Block.mk BKind.identifier 0 0] (by decide)⟩

theorem c8_directive_split_witness :
    (ParseDirective "#a /*b*/ c\nd;".data ⟨0, 1⟩).pos =
      0 + 1 + idxOfNL ("#a /*b*/ c\nd;".data.drop (0 + 1)) ∧
    (ParseDirective "#a /*b\n*/ c\nd;".data ⟨0, 1⟩).pos = 0 + 1 + 2 :=
  ⟨c8_directive_split.1 "#a /*b*/ c\nd;".data ⟨0, 1⟩ 2 1 (by decide) (by decide)
      (by rfl) (by rfl),
    c8_directive_split.2.1 "#a /*b\n*/ c\nd;".data ⟨0, 1⟩ 2 (by decide) (by decide)
      (by rfl) (by rfl)⟩

theorem chainOKB_cons_iff {b : Block} {rest : List Block} :
    chainOKB (b :: rest) = true ↔
      (b.beg ≤ b.fin ∧ b.beg = chainTo rest ∧ chainOKB rest = true) := by
  simp only [chainOKB, Bool.and_eq_true, decide_eq_true_eq]
  tauto

theorem chainOKB_suffix : ∀ {bl s : List Block}, s <:+ bl → chainOKB bl = true →
    chainOKB s = true := by
  intro bl
  induction bl with
  | nil =>
    intro s hs hc
    rw [List.suffix_nil.mp hs]
    rfl
  | cons b rest ih =>
    intro s hs hc
    rcases List.suffix_cons_iff.mp hs with h | h
    · rw [h]
      exact hc
    · exact ih h ((chainOKB_cons_iff.mp hc).2.2)

theorem chainTo_suffix_le : ∀ {bl s : List Block}, s <:+ bl → chainOKB bl = true →
    chainTo s ≤ chainTo bl := by
  intro bl
  induction bl with
  | nil =>
    intro s hs _
    rw [List.suffix_nil.mp hs]
  | cons b rest ih =>
    intro s hs hc
    rcases List.suffix_cons_iff.mp hs with h | h
    · rw [h]
    · have hc1 := chainOKB_cons_iff.mp hc
      have hih := ih h hc1.2.2
      have hb : b.beg = chainTo rest := hc1.2.1
      have hbf : b.beg ≤ b.fin := hc1.1
      show chainTo s ≤ b.fin + 1
      omega

theorem revSkip_spec : ∀ (bl : List Block), (revSkip bl).2 = bl.drop (revSkip bl).1 := by
  intro bl
  induction bl with
  | nil => rfl
  | cons b rest ih =>
    unfold revSkip
    dsimp only
    split <;>
      first
        | rfl
        | (rcases hr : revSkip rest with ⟨s, r⟩;
           rw [hr] at ih;
           dsimp only at ih ⊢;
           rw [List.drop_succ_cons];
           exact ih)

/-- Restamping a block reached by the reverse skip: its `fin` is pushed out to
`f ≥` the frontier (and its type replaced); the chain stays contiguous with
frontier `f + 1`. -/
theorem chain_restamp {bl : List Block} {x : Block} {tl : List Block} {f : Nat} {t : BKind}
    (hc : chainOKB bl = true) (hsuf : (x :: tl) <:+ bl) (hf : chainTo bl ≤ f) :
    chainOKB ({ x with fin := f, type := t } :: tl) = true ∧
      chainTo ({ x with fin := f, type := t } :: tl) = f + 1 := by
  have h1 := chainOKB_cons_iff.mp (chainOKB_suffix hsuf hc)
  have h2 : x.fin + 1 ≤ chainTo bl := chainTo_suffix_le hsuf hc
  constructor
  · rw [chainOKB_cons_iff]
    refine ⟨?_, h1.2.1, h1.2.2⟩
    show x.beg ≤ f
    have hb := h1.1
    omega
  · rfl

theorem chain_retype (t : BKind) :
    ∀ (s : Nat) (bl : List Block) (b : Block) (r : List Block),
      bl.drop s = b :: r →
      chainOKB (bl.take s ++ ({ b with type := t } :: r)) = chainOKB bl ∧
        chainTo (bl.take s ++ ({ b with type := t } :: r)) = chainTo bl := by
  intro s
  induction s with
  | zero =>
    intro bl b r h
    rw [List.drop_zero] at h
    subst h
    exact ⟨rfl, rfl⟩
  | succ s ih =>
    intro bl b r h
    cases bl with
    | nil => simp at h
    | cons x bl1 =>
      rw [List.drop_succ_cons] at h
      have hih := ih bl1 b r h
      simp only [List.take_succ_cons, List.cons_append]
      constructor
      · simp only [chainOKB]
        rw [hih.1, hih.2]
      · rfl

/-- A successful MergeCodeBlocks pops skipped blocks but restamps the survivor
through the new block's end: the chain stays contiguous with the new frontier. -/
theorem MergeCodeBlocks_chain {bl bl' : List Block} {nb : Block}
    (hc : chainOKB bl = true) (hbeg : nb.beg = chainTo bl) (hbf : nb.beg ≤ nb.fin)
    (hm : MergeCodeBlocks bl nb = some bl') :
    chainOKB bl' = true ∧ chainTo bl' = nb.fin + 1 := by
  have hf : chainTo bl ≤ nb.fin := by omega
  cases bl with
  | nil => exact absurd hm (by simp [MergeCodeBlocks])
  | cons back rest =>
    unfold MergeCodeBlocks at hm
    dsimp only at hm
    split at hm
    · -- begin_group absorbs a trailing empty block
      split at hm
      · injection hm with h
        subst h
        exact chain_restamp hc (List.suffix_refl _) hf
      · exact absurd hm (by simp)
    · -- identifier merging across `::`
      rcases hr1 : revSkip (back :: rest) with ⟨s1, l1⟩
      rw [hr1] at hm
      cases l1 with
      | nil =>
        dsimp only at hm
        exact absurd hm (by simp)
      | cons scope r1 =>
        dsimp only at hm
        have hsuf1 : (scope :: r1) <:+ (back :: rest) := by
          have hspec := revSkip_spec (back :: rest)
          rw [hr1] at hspec
          dsimp only at hspec
          rw [hspec]
          exact List.drop_suffix _ _
        split at hm
        · rcases hr2 : revSkip r1 with ⟨s2, l2⟩
          rw [hr2] at hm
          cases l2 with
          | nil =>
            dsimp only at hm
            injection hm with h
            subst h
            exact chain_restamp hc hsuf1 hf
          | cons idb r2 =>
            dsimp only at hm
            have hsuf2 : (idb :: r2) <:+ (back :: rest) := by
              have hspec := revSkip_spec r1
              rw [hr2] at hspec
              dsimp only at hspec
              have hd : (idb :: r2) <:+ r1 := by
                rw [hspec]
                exact List.drop_suffix _ _
              exact List.IsSuffix.trans hd
                (List.IsSuffix.trans (List.suffix_cons scope r1) hsuf1)
            split at hm
            · injection hm with h
              subst h
              exact chain_restamp hc hsuf2 hf
            · injection hm with h
              subst h
              exact chain_restamp hc hsuf1 hf
        · exact absurd hm (by simp)
    · -- access_modifier absorbing the preceding identifier
      rcases hr1 : revSkip (back :: rest) with ⟨s1, l1⟩
      rw [hr1] at hm
      cases l1 with
      | nil =>
        dsimp only at hm
        exact absurd hm (by simp)
      | cons idb r1 =>
        dsimp only at hm
        have hsuf1 : (idb :: r1) <:+ (back :: rest) := by
          have hspec := revSkip_spec (back :: rest)
          rw [hr1] at hspec
          dsimp only at hspec
          rw [hspec]
          exact List.drop_suffix _ _
        split at hm
        · injection hm with h
          subst h
          exact chain_restamp hc hsuf1 hf
        · exact absurd hm (by simp)
    · -- initialization_list merging
      rcases hr1 : revSkip (back :: rest) with ⟨s1, l1⟩
      rw [hr1] at hm
      cases l1 with
      | nil =>
        dsimp only at hm
        exact absurd hm (by simp)
      | cons ilb r1 =>
        dsimp only at hm
        have hsuf1 : (ilb :: r1) <:+ (back :: rest) := by
          have hspec := revSkip_spec (back :: rest)
          rw [hr1] at hspec
          dsimp only at hspec
          rw [hspec]
          exact List.drop_suffix _ _
        split at hm
        · injection hm with h
          subst h
          exact chain_restamp hc hsuf1 hf
        · exact absurd hm (by simp)
    all_goals exact absurd hm (by simp)

/-- The append path of InsertCodeBlock: flushing the gap as an `other` block
and appending/merging the new block extends the contiguous chain exactly to
the iterator position. -/
theorem insertAppend_chain {st : PState} {ty : BKind} {beg ctp : Nat} {bl : List Block}
    (hc : chainOKB bl = true) (hto : chainTo bl = ctp) (hle : ctp ≤ beg)
    (hty : if ty = BKind.none then beg = st.it.pos else beg < st.it.pos) :
    chainOKB (insertAppend st ty beg ctp bl).blocksR = true ∧
      chainTo (insertAppend st ty beg ctp bl).blocksR = st.it.pos := by
  unfold insertAppend
  dsimp only
  have hbl1 : chainOKB (if ctp < beg then Block.mk BKind.other ctp (beg - 1) :: bl else bl)
        = true ∧
      chainTo (if ctp < beg then Block.mk BKind.other ctp (beg - 1) :: bl else bl) = beg := by
    by_cases h : ctp < beg
    · rw [if_pos h]
      refine ⟨?_, ?_⟩
      · rw [chainOKB_cons_iff]
        refine ⟨?_, ?_, hc⟩
        · show ctp ≤ beg - 1
          omega
        · exact hto.symm
      · show beg - 1 + 1 = beg
        omega
    · rw [if_neg h]
      exact ⟨hc, by omega⟩
  by_cases hn : ty = BKind.none
  · rw [if_pos hn]
    rw [if_pos hn] at hty
    exact ⟨hbl1.1, by rw [hbl1.2]; exact hty⟩
  · rw [if_neg hn]
    rw [if_neg hn] at hty
    rcases hm : MergeCodeBlocks
        (if ctp < beg then Block.mk BKind.other ctp (beg - 1) :: bl else bl)
        (Block.mk ty beg (st.it.pos - 1)) with - | bl2
    · dsimp only
      refine ⟨?_, ?_⟩
      · rw [chainOKB_cons_iff]
        refine ⟨?_, ?_, hbl1.1⟩
        · show beg ≤ st.it.pos - 1
          omega
        · exact hbl1.2.symm
      · show st.it.pos - 1 + 1 = st.it.pos
        omega
    · dsimp only
      have hmm := MergeCodeBlocks_chain hbl1.1 (by exact hbl1.2.symm)
        (by show beg ≤ st.it.pos - 1; omega) hm
      refine ⟨hmm.1, ?_⟩
      rw [hmm.2]
      show st.it.pos - 1 + 1 = st.it.pos
      omega

/-- Parser::InsertCodeBlock preserves the coverage chain and moves the frontier
exactly to the iterator position. -/
theorem InsertCodeBlock_chain {st : PState} {ty : BKind} {beg : Nat}
    (hc : chainOKB st.blocksR = true)
    (hle : chainTo st.blocksR ≤ beg)
    (hty : if ty = BKind.none then beg = st.it.pos else beg < st.it.pos) :
    chainOKB (InsertCodeBlock st ty beg).blocksR = true ∧
      chainTo (InsertCodeBlock st ty beg).blocksR = st.it.pos := by
  have hble : beg ≤ st.it.pos := by
    by_cases hn : ty = BKind.none
    · rw [if_pos hn] at hty
      omega
    · rw [if_neg hn] at hty
      omega
  unfold InsertCodeBlock
  rcases hbl : st.blocksR with - | ⟨back, rest⟩
  · dsimp only
    exact insertAppend_chain rfl rfl (Nat.zero_le _) hty
  · rw [hbl] at hc hle
    dsimp only
    by_cases hmw : MergeWithPrevious (st.containers.headD defaultContainer) ty back = true
    · rw [if_pos hmw]
      dsimp only
      have hc1 := chainOKB_cons_iff.mp hc
      have hfle : back.fin + 1 ≤ beg := hle
      refine ⟨?_, ?_⟩
      · rw [chainOKB_cons_iff]
        refine ⟨?_, hc1.2.1, hc1.2.2⟩
        show back.beg ≤ st.it.pos - 1
        have hbb := hc1.1
        omega
      · show st.it.pos - 1 + 1 = st.it.pos
        omega
    · rw [if_neg hmw]
      exact insertAppend_chain hc rfl hle hty

theorem AdvanceUntil_pos_mono (chars : List Char) (it : Iter) (ts : List Char) :
    it.pos ≤ (AdvanceUntilCharIsFound chars it ts).pos :=
  advance_pos_mono chars _ it

theorem AdvanceUntil_le_len {chars : List Char} {it : Iter} (ts : List Char)
    (h : it.pos ≤ chars.length) :
    (AdvanceUntilCharIsFound chars it ts).pos ≤ chars.length :=
  advance_le_len _ _ h

theorem ParseEscapeSequence_pos {chars : List Char} {it it' : Iter}
    (hok : ParseEscapeSequence chars it = .ok it') (hlen : it.pos ≤ chars.length) :
    it.pos ≤ it'.pos ∧ it'.pos ≤ chars.length := by
  unfold ParseEscapeSequence at hok
  dsimp only at hok
  split at hok
  · injection hok with h
    subst h
    exact ⟨le_trans (MoveNext_pos_mono chars it) (advance_pos_mono chars _ _),
      advance_le_len _ _ (MoveNext_le_len hlen)⟩
  · exact absurd hok (by simp)

theorem ParseCharLiteral_pos {chars : List Char} {it it' : Iter}
    (hV : Value chars it ≠ nulC)
    (hok : ParseCharLiteral chars it = .ok it') :
    it.pos < it'.pos ∧ it'.pos ≤ chars.length := by
  have hlt : it.pos < chars.length := pos_lt_of_Value_ne hV
  have h1 : (MoveNext chars it).pos = it.pos + 1 := MoveNext_pos_of_ne hV
  unfold ParseCharLiteral at hok
  dsimp only at hok
  split at hok
  · exact absurd hok (by simp)
  · rcases hmid : (if Value chars (MoveNext chars it) = '\\'
        then ParseEscapeSequence chars (MoveNext chars it)
        else Except.ok (MoveNext chars (MoveNext chars it))) with e | it2
    · rw [hmid] at hok
      exact absurd hok (by simp)
    · rw [hmid] at hok
      dsimp only at hok
      have h2 : (MoveNext chars it).pos ≤ it2.pos ∧ it2.pos ≤ chars.length := by
        by_cases hb : Value chars (MoveNext chars it) = '\\'
        · rw [if_pos hb] at hmid
          exact ParseEscapeSequence_pos hmid (by omega)
        · rw [if_neg hb] at hmid
          injection hmid with h
          subst h
          exact ⟨MoveNext_pos_mono _ _, MoveNext_le_len (by omega)⟩
      split at hok
      · injection hok with h
        subst h
        have hq : Value chars it2 = quoteC := by assumption
        have hnq : Value chars it2 ≠ nulC := by
          rw [hq]
          decide
        have h3 : (MoveNext chars it2).pos = it2.pos + 1 := MoveNext_pos_of_ne hnq
        have h4 : it2.pos < chars.length := pos_lt_of_Value_ne hnq
        exact ⟨by omega, by omega⟩
      · exact absurd hok (by simp)

theorem ParseWhiteSpaces_pos {chars : List Char} {it : Iter}
    (hV : Value chars it ≠ nulC) :
    it.pos < (ParseWhiteSpaces chars it).pos ∧
      (ParseWhiteSpaces chars it).pos ≤ chars.length := by
  have hlt : it.pos < chars.length := pos_lt_of_Value_ne hV
  have h1 : (MoveNext chars it).pos = it.pos + 1 := MoveNext_pos_of_ne hV
  unfold ParseWhiteSpaces
  dsimp only
  constructor
  · have hm := advance_pos_mono chars
      (wsRun (chars.drop (MoveNext chars it).pos)) (MoveNext chars it)
    omega
  · exact advance_le_len _ _ (by omega)

theorem lineComments_pos {chars : List Char} :
    ∀ (fuel : Nat) (it : Iter), it.pos ≤ chars.length →
      it.pos ≤ (lineComments chars fuel it).pos ∧
        (lineComments chars fuel it).pos ≤ chars.length := by
  intro fuel
  induction fuel with
  | zero =>
    intro it h
    exact ⟨le_refl _, h⟩
  | succ fuel ih =>
    intro it h
    unfold lineComments
    dsimp only
    split
    · have key := ih (advance chars it (wsRun (chars.drop it.pos) + 2 +
          idxOfNL (chars.drop (it.pos + wsRun (chars.drop it.pos) + 2))))
        (advance_le_len _ _ h)
      exact ⟨le_trans (advance_pos_mono chars _ _) key.1, key.2⟩
    · exact ⟨le_refl _, h⟩

theorem ParseComments_pos {chars : List Char} {it it' : Iter} (hnn : nulC ∉ chars)
    (hok : ParseComments chars it = .ok (some it')) :
    it.pos < it'.pos ∧ it'.pos ≤ chars.length := by
  unfold ParseComments at hok
  dsimp only at hok
  split at hok
  · rcases hf : findSub (chars.drop (it.pos + 2)) ['*', '/'] with - | j
    · rw [hf] at hok
      exact absurd hok (by simp)
    · rw [hf] at hok
      dsimp only at hok
      injection hok with h
      injection h with h2
      subst h2
      have hpre := findSub_prefix hf
      have hlen2 : it.pos + 2 + j + 2 ≤ chars.length := by
        have hl := hpre.length_le
        simp only [List.length_drop, List.length_cons, List.length_nil] at hl
        omega
      have hws : wsRun (chars.drop (it.pos + 2 + j + 2)) ≤
          chars.length - (it.pos + 2 + j + 2) := by
        have hl : (List.takeWhile isSpaceC (chars.drop (it.pos + 2 + j + 2))).length ≤
            (chars.drop (it.pos + 2 + j + 2)).length :=
          List.IsPrefix.length_le ( List.takeWhile_prefix _)
        simpa [wsRun, List.length_drop] using hl
      have hexact := advance_pos_exact hnn
        (2 + j + 2 + wsRun (chars.drop (it.pos + 2 + j + 2))) it (by omega)
      exact ⟨by rw [hexact]; omega, by rw [hexact]; omega⟩
  · split at hok
    · injection hok with h
      injection h with h2
      subst h2
      have hpk : Peek chars it = '/' := by assumption
      have hp : getC chars (it.pos + 1) = '/' := by
        unfold Peek at hpk
        split at hpk
        · exact absurd hpk (by decide)
        · exact hpk
      have hlt1 : it.pos + 1 < chars.length := by
        by_contra hcon
        have hnl : getC chars (it.pos + 1) = nulC := by
          unfold getC
          exact List.getD_eq_default _ _ (by omega)
        rw [hnl] at hp
        exact absurd hp (by decide)
      have hidx : idxOfNL (chars.drop (it.pos + 2)) ≤ chars.length - (it.pos + 2) := by
        have hl := idxOfNL_le (chars.drop (it.pos + 2))
        simpa [List.length_drop] using hl
      have hexact := advance_pos_exact hnn (2 + idxOfNL (chars.drop (it.pos + 2))) it
        (by omega)
      have hlc := @lineComments_pos chars (chars.length + 1)
        (advance chars it (2 + idxOfNL (chars.drop (it.pos + 2))))
        (by rw [hexact]; omega)
      constructor
      · have hm := hlc.1
        rw [hexact] at hm
        omega
      · exact hlc.2
    · exact absurd hok (by simp)

theorem ParseDirective_pos {chars : List Char} {it : Iter} (hnn : nulC ∉ chars)
    (hV : Value chars it ≠ nulC) :
    it.pos < (ParseDirective chars it).pos ∧
      (ParseDirective chars it).pos ≤ chars.length := by
  have hlt : it.pos < chars.length := pos_lt_of_Value_ne hV
  have h1 : (MoveNext chars it).pos = it.pos + 1 := MoveNext_pos_of_ne hV
  have h1l : (MoveNext chars it).pos ≤ chars.length := by omega
  unfold ParseDirective
  dsimp only
  rcases hf : findPatLine (chars.drop (MoveNext chars it).pos) ['/', '*'] with - | k
  · dsimp only
    constructor
    · refine lt_of_lt_of_le (show it.pos < (MoveNext chars it).pos by omega) ?_
      exact le_trans (AdvanceUntil_pos_mono chars _ _) (MoveNext_pos_mono chars _)
    · exact MoveNext_le_len (AdvanceUntil_le_len _ h1l)
  · dsimp only
    have hb := findPatLine_bound hf
    have hb2 : (MoveNext chars it).pos + (k + 2) ≤ chars.length := by
      simp only [List.length_drop, List.length_cons, List.length_nil] at hb
      omega
    have hex2 := advance_pos_exact hnn (k + 2) (MoveNext chars it) hb2
    rcases hg : findPatLine
        (chars.drop (advance chars (MoveNext chars it) (k + 2)).pos) ['*', '/'] with - | j
    · dsimp only
      have hm1 : (MovePrevious chars (advance chars (MoveNext chars it) (k + 2))).pos
          = (advance chars (MoveNext chars it) (k + 2)).pos - 1 :=
        MovePrevious_pos (by omega)
      have hm2 : (MovePrevious chars
            (MovePrevious chars (advance chars (MoveNext chars it) (k + 2)))).pos
          = (MovePrevious chars (advance chars (MoveNext chars it) (k + 2))).pos - 1 :=
        MovePrevious_pos (by omega)
      exact ⟨by omega, by omega⟩
    · dsimp only
      constructor
      · refine lt_of_lt_of_le
          (show it.pos < (advance chars (advance chars (MoveNext chars it) (k + 2)) (j + 2)).pos
            from lt_of_lt_of_le (by omega) (advance_pos_mono chars _ _)) ?_
        exact advance_pos_mono chars _ _
      · exact advance_le_len _ _ (advance_le_len _ _ (by omega))

theorem stringBody_pos {chars : List Char} {start : Iter} :
    ∀ (fuel : Nat) (it : Iter) {it' : Iter}, it.pos ≤ chars.length →
      stringBody chars start fuel it = .ok it' →
      it.pos ≤ it'.pos ∧ it'.pos ≤ chars.length := by
  intro fuel
  induction fuel with
  | zero =>
    intro it it' h hok
    exact absurd hok (by simp [stringBody])
  | succ fuel ih =>
    intro it it' h hok
    unfold stringBody at hok
    dsimp only at hok
    split at hok
    · injection hok with he
      subst he
      have hq : Value chars (AdvanceUntilCharIsFound chars it ['\\', '"', '\n']) = '"' := by
        assumption
      have hnq : Value chars (AdvanceUntilCharIsFound chars it ['\\', '"', '\n']) ≠ nulC := by
        rw [hq]
        decide
      have h4 := pos_lt_of_Value_ne hnq
      have h3 := MoveNext_pos_of_ne hnq
      have h5 := AdvanceUntil_pos_mono chars it ['\\', '"', '\n']
      exact ⟨by omega, by omega⟩
    · split at hok
      · rcases hes : ParseEscapeSequence chars
            (AdvanceUntilCharIsFound chars it ['\\', '"', '\n']) with e | it3
        · rw [hes] at hok
          exact absurd hok (by simp)
        · rw [hes] at hok
          dsimp only at hok
          have hpes := ParseEscapeSequence_pos hes (AdvanceUntil_le_len _ h)
          have hrec := ih it3 hpes.2 hok
          have h5 := AdvanceUntil_pos_mono chars it ['\\', '"', '\n']
          exact ⟨by omega, hrec.2⟩
      · exact absurd hok (by simp)

theorem ParseString_pos {chars : List Char} {it it' : Iter}
    (hV : Value chars it ≠ nulC)
    (hok : ParseString chars it = .ok it') :
    it.pos < it'.pos ∧ it'.pos ≤ chars.length := by
  have hlt : it.pos < chars.length := pos_lt_of_Value_ne hV
  have h1 : (MoveNext chars it).pos = it.pos + 1 := MoveNext_pos_of_ne hV
  unfold ParseString at hok
  dsimp only at hok
  split at hok
  · rcases hr : rawLen (chars.drop (MoveNext chars it).pos) with - | k
    · rw [hr] at hok
      exact absurd hok (by simp)
    · rw [hr] at hok
      dsimp only at hok
      injection hok with he
      subst he
      have m1 := advance_pos_mono chars k (MoveNext chars it)
      exact ⟨by omega, advance_le_len _ _ (by omega)⟩
  · have hsb := stringBody_pos (chars.length + 1) (MoveNext chars it) (by omega) hok
    exact ⟨by omega, hsb.2⟩

theorem insertAppend_it (st : PState) (ty : BKind) (beg ctp : Nat) (bl : List Block) :
    (insertAppend st ty beg ctp bl).it = st.it := by
  unfold insertAppend
  dsimp only
  split <;> (try split) <;> rfl

theorem InsertCodeBlock_it (st : PState) (ty : BKind) (beg : Nat) :
    (InsertCodeBlock st ty beg).it = st.it := by
  unfold InsertCodeBlock
  split
  · exact insertAppend_it st ty beg 0 []
  · split
    · rfl
    · exact insertAppend_it st ty beg _ _

/-- The common tail of a lexer step keeps the coverage invariant: a `none`
type only advances the iterator, any other type inserts the block
`[beg, pos - 1]` and moves the frontier to the iterator. -/
theorem finishStep_chain {chars : List Char} {st'' : PState} {ty : BKind} {beg : Nat}
    (hc : chainOKB st''.blocksR = true)
    (hinv : if ty = BKind.none then chainTo st''.blocksR ≤ st''.it.pos
            else chainTo st''.blocksR ≤ beg ∧ beg < st''.it.pos)
    (hlen : st''.it.pos ≤ chars.length) :
    ChainInv chars (finishStep chars beg st'' ty) := by
  unfold finishStep
  by_cases hn : ty = BKind.none
  · rw [if_pos hn]
    rw [if_pos hn] at hinv
    exact ⟨hc, le_trans hinv (MoveNext_pos_mono chars st''.it), MoveNext_le_len hlen⟩
  · rw [if_neg hn]
    rw [if_neg hn] at hinv
    have hic := InsertCodeBlock_chain hc hinv.1 (by rw [if_neg hn]; exact hinv.2)
    refine ⟨hic.1, ?_, ?_⟩
    · rw [hic.2, InsertCodeBlock_it]
    · rw [InsertCodeBlock_it]
      exact hlen

/-- One lexer-loop iteration preserves the coverage invariant. -/
theorem lexStep_chain {chars : List Char} {st st' : PState} (hnn : nulC ∉ chars)
    (hV : Value chars st.it ≠ nulC) (hinv : ChainInv chars st)
    (hok : lexStep chars st = .ok st') : ChainInv chars st' := by
  obtain ⟨hc, hle, hlen⟩ := hinv
  have hlt : st.it.pos < chars.length := pos_lt_of_Value_ne hV
  have hmn : (MoveNext chars st.it).pos = st.it.pos + 1 := MoveNext_pos_of_ne hV
  unfold lexStep at hok
  dsimp only at hok
  by_cases h1 : Value chars st.it = quoteC
  · rw [if_pos h1] at hok
    rcases hp : ParseCharLiteral chars st.it with e | it2
    · rw [hp] at hok
      exact absurd hok (by simp)
    · rw [hp] at hok
      dsimp only at hok
      injection hok with he
      subst he
      have hpos := ParseCharLiteral_pos hV hp
      exact finishStep_chain hc (by rw [if_neg (by decide)]; exact ⟨hle, hpos.1⟩) hpos.2
  rw [if_neg h1] at hok
  by_cases h2 : Value chars st.it = '"'
  · rw [if_pos h2] at hok
    rcases hp : ParseString chars st.it with e | it2
    · rw [hp] at hok
      exact absurd hok (by simp)
    · rw [hp] at hok
      dsimp only at hok
      injection hok with he
      subst he
      have hpos := ParseString_pos hV hp
      exact finishStep_chain hc (by rw [if_neg (by decide)]; exact ⟨hle, hpos.1⟩) hpos.2
  rw [if_neg h2] at hok
  by_cases h3 : Value chars st.it = '#'
  · rw [if_pos h3] at hok
    injection hok with he
    subst he
    have hpos := ParseDirective_pos hnn hV
    exact finishStep_chain hc (by rw [if_neg (by decide)]; exact ⟨hle, hpos.1⟩) hpos.2
  rw [if_neg h3] at hok
  by_cases h4 : Value chars st.it = ';'
  · rw [if_pos h4] at hok
    injection hok with he
    subst he
    refine finishStep_chain hc
      (by
        rw [if_neg (by decide)]
        refine ⟨hle, ?_⟩
        show st.it.pos < (MoveNext chars st.it).pos
        omega) ?_
    exact MoveNext_le_len (by omega)
  rw [if_neg h4] at hok
  by_cases h5 : Value chars st.it = Char.ofNat 123
  · rw [if_pos h5] at hok
    injection hok with he
    subst he
    split <;>
      exact finishStep_chain hc
        (by
          rw [if_neg (by decide)]
          refine ⟨hle, ?_⟩
          show st.it.pos < (MoveNext chars st.it).pos
          omega)
        (MoveNext_le_len (by omega))
  rw [if_neg h5] at hok
  by_cases h6 : Value chars st.it = Char.ofNat 125
  · rw [if_pos h6] at hok
    split at hok
    · exact absurd hok (by simp)
    · split at hok <;>
        (injection hok with he;
         subst he;
         exact finishStep_chain hc
          (by
            rw [if_neg (by decide)]
            refine ⟨hle, ?_⟩
            show st.it.pos < (MoveNext chars st.it).pos
            omega)
          (MoveNext_le_len (by omega)))
  rw [if_neg h6] at hok
  by_cases h7 : Value chars st.it = '/'
  · rw [if_pos h7] at hok
    rcases hp : ParseComments chars st.it with e | o
    · rw [hp] at hok
      exact absurd hok (by simp)
    · rcases o with - | it2
      · rw [hp] at hok
        dsimp only at hok
        injection hok with he
        subst he
        exact finishStep_chain hc (by rw [if_pos rfl]; exact hle) hlen
      · rw [hp] at hok
        dsimp only at hok
        injection hok with he
        subst he
        have hpos := ParseComments_pos hnn hp
        exact finishStep_chain hc (by rw [if_neg (by decide)]; exact ⟨hle, hpos.1⟩) hpos.2
  rw [if_neg h7] at hok
  by_cases h8 : Value chars st.it = '('
  · rw [if_pos h8] at hok
    injection hok with he
    subst he
    split
    · exact finishStep_chain hc
        (by
          rw [if_neg (by decide)]
          refine ⟨hle, ?_⟩
          show st.it.pos < (MoveNext chars st.it).pos
          omega)
        (MoveNext_le_len (by omega))
    · exact finishStep_chain hc
        (by
          rw [if_neg (by decide)]
          refine ⟨hle, ?_⟩
          show st.it.pos < (MoveNext chars st.it).pos
          omega)
        (MoveNext_le_len (by omega))
    · split
      · rename_i s b r heq
        have hdrop : st.blocksR.drop s = b :: r := by
          have hspec := revSkip_spec st.blocksR
          rw [heq] at hspec
          dsimp only at hspec
          exact hspec.symm
        split
        · refine finishStep_chain ?_
            (by
              rw [if_neg (by decide)]
              refine ⟨?_, ?_⟩
              · show chainTo (st.blocksR.take s ++ _ :: r) ≤ st.it.pos
                rw [(chain_retype _ s st.blocksR b r hdrop).2]
                exact hle
              · show st.it.pos < (MoveNext chars st.it).pos
                omega)
            (MoveNext_le_len (show st.it.pos ≤ chars.length by omega))
          show chainOKB (st.blocksR.take s ++ _ :: r) = true
          rw [(chain_retype _ s st.blocksR b r hdrop).1]
          exact hc
        · exact finishStep_chain hc
            (by
              rw [if_neg (by decide)]
              refine ⟨hle, ?_⟩
              show st.it.pos < (MoveNext chars st.it).pos
              omega)
            (MoveNext_le_len (by omega))
      · exact finishStep_chain hc
          (by
            rw [if_neg (by decide)]
            refine ⟨hle, ?_⟩
            show st.it.pos < (MoveNext chars st.it).pos
            omega)
          (MoveNext_le_len (by omega))
  rw [if_neg h8] at hok
  by_cases h9 : Value chars st.it = ')'
  · rw [if_pos h9] at hok
    split at hok
    · exact absurd hok (by simp)
    · split at hok <;>
        (injection hok with he;
         subst he;
         exact finishStep_chain hc
          (by
            rw [if_neg (by decide)]
            refine ⟨hle, ?_⟩
            show st.it.pos < (MoveNext chars st.it).pos
            omega)
          (MoveNext_le_len (by omega)))
  rw [if_neg h9] at hok
  by_cases h10 : Value chars st.it = ','
  · rw [if_pos h10] at hok
    split at hok
    · injection hok with he
      subst he
      refine finishStep_chain hc
        (by
          rw [if_pos rfl]
          show chainTo st.blocksR ≤ (MoveNext chars st.it).pos
          omega)
        (MoveNext_le_len (by omega))
    · split at hok
      · split at hok
        · injection hok with he
          subst he
          exact finishStep_chain hc
            (by
              rw [if_neg (by decide)]
              refine ⟨hle, ?_⟩
              show st.it.pos < (MoveNext chars st.it).pos
              omega)
            (MoveNext_le_len (by omega))
        · injection hok with he
          subst he
          refine finishStep_chain hc
            (by
              rw [if_pos rfl]
              show chainTo st.blocksR ≤ (MoveNext chars st.it).pos
              omega)
            (MoveNext_le_len (by omega))
      · injection hok with he
        subst he
        refine finishStep_chain hc
          (by
            rw [if_pos rfl]
            show chainTo st.blocksR ≤ (MoveNext chars st.it).pos
            omega)
          (MoveNext_le_len (by omega))
  rw [if_neg h10] at hok
  by_cases h11 : Value chars st.it = ':'
  · rw [if_pos h11] at hok
    split at hok
    · injection hok with he
      subst he
      refine finishStep_chain hc
        (by
          rw [if_neg (by decide)]
          refine ⟨hle, ?_⟩
          show st.it.pos < (MoveNext chars (MoveNext chars st.it)).pos
          have hm2 := MoveNext_pos_mono chars (MoveNext chars st.it)
          omega)
        ?_
      exact MoveNext_le_len (MoveNext_le_len (by omega))
    · split at hok
      · injection hok with he
        subst he
        exact finishStep_chain hc
          (by
            rw [if_neg (by decide)]
            refine ⟨hle, ?_⟩
            show st.it.pos < (MoveNext chars st.it).pos
            omega)
          (MoveNext_le_len (by omega))
      · split at hok
        · injection hok with he
          subst he
          exact finishStep_chain hc
            (by
              rw [if_neg (by decide)]
              refine ⟨hle, ?_⟩
              show st.it.pos < (MoveNext chars st.it).pos
              omega)
            (MoveNext_le_len (by omega))
        · injection hok with he
          subst he
          refine finishStep_chain hc
            (by
              rw [if_pos rfl]
              show chainTo st.blocksR ≤ (MoveNext chars st.it).pos
              omega)
            (MoveNext_le_len (by omega))
  rw [if_neg h11] at hok
  by_cases h12 : isIdentStart (Value chars st.it) = true
  · rw [if_pos h12] at hok
    have hwb : wRun (chars.drop (st.it.pos + 1)) ≤ chars.length - (st.it.pos + 1) := by
      have hl : (List.takeWhile isWordChar (chars.drop (st.it.pos + 1))).length ≤
          (chars.drop (st.it.pos + 1)).length :=
        List.IsPrefix.length_le ( List.takeWhile_prefix _)
      simpa [wRun, List.length_drop] using hl
    have hadv := advance_pos_exact hnn (1 + wRun (chars.drop (st.it.pos + 1))) st.it (by omega)
    split at hok
    · injection hok with he
      subst he
      exact finishStep_chain hc
        (by
          rw [if_neg (by decide)]
          refine ⟨hle, ?_⟩
          show st.it.pos < (advance chars st.it (1 + wRun (chars.drop (st.it.pos + 1)))).pos
          omega)
        (by
          show (advance chars st.it (1 + wRun (chars.drop (st.it.pos + 1)))).pos ≤ chars.length
          omega)
    · split at hok
      · injection hok with he
        subst he
        exact finishStep_chain hc
          (by
            rw [if_neg (by decide)]
            refine ⟨hle, ?_⟩
            show st.it.pos < (advance chars st.it (1 + wRun (chars.drop (st.it.pos + 1)))).pos
            omega)
          (by
            show (advance chars st.it (1 + wRun (chars.drop (st.it.pos + 1)))).pos ≤
              chars.length
            omega)
      · split at hok
        · injection hok with he
          subst he
          exact finishStep_chain hc
            (by
              rw [if_neg (by decide)]
              refine ⟨hle, ?_⟩
              show st.it.pos < (advance chars st.it (1 + wRun (chars.drop (st.it.pos + 1)))).pos
              omega)
            (by
              show (advance chars st.it (1 + wRun (chars.drop (st.it.pos + 1)))).pos ≤
                chars.length
              omega)
        · split at hok
          · injection hok with he
            subst he
            exact finishStep_chain hc
              (by
                rw [if_neg (by decide)]
                refine ⟨hle, ?_⟩
                show st.it.pos <
                  (advance chars st.it (1 + wRun (chars.drop (st.it.pos + 1)))).pos
                omega)
              (by
                show (advance chars st.it (1 + wRun (chars.drop (st.it.pos + 1)))).pos ≤
                  chars.length
                omega)
          · injection hok with he
            subst he
            exact finishStep_chain hc
              (by
                rw [if_neg (by decide)]
                refine ⟨hle, ?_⟩
                show st.it.pos <
                  (advance chars st.it (1 + wRun (chars.drop (st.it.pos + 1)))).pos
                omega)
              (by
                show (advance chars st.it (1 + wRun (chars.drop (st.it.pos + 1)))).pos ≤
                  chars.length
                omega)
  rw [if_neg h12] at hok
  by_cases h13 : isSpaceC (Value chars st.it) = true
  · rw [if_pos h13] at hok
    injection hok with he
    subst he
    have hpos := ParseWhiteSpaces_pos hV
    exact finishStep_chain hc (by rw [if_neg (by decide)]; exact ⟨hle, hpos.1⟩) hpos.2
  rw [if_neg h13] at hok
  injection hok with he
  subst he
  exact finishStep_chain hc (by rw [if_pos rfl]; exact hle) hlen

/-- The Parser main loop: from any state satisfying the coverage invariant, a
successful run produces a reversed chain covering the whole buffer. -/
theorem parseLoop_chain {chars : List Char} (hnn : nulC ∉ chars) :
    ∀ (fuel : Nat) (st : PState) (blocks : List Block),
      ChainInv chars st →
      parseLoop chars fuel st = LexResult.ok blocks →
      ∃ blR : List Block, blocks = blR.reverse ∧ chainOKB blR = true ∧
        chainTo blR = chars.length := by
  intro fuel
  induction fuel with
  | zero =>
    intro st blocks hinv hok
    exact absurd hok (by simp [parseLoop])
  | succ fuel ih =>
    intro st blocks hinv hok
    unfold parseLoop at hok
    split at hok
    · injection hok with he
      have hVn : Value chars st.it = nulC := by assumption
      obtain ⟨hc, hle, hlen⟩ := hinv
      have hpe : st.it.pos = chars.length := by
        by_contra hne
        exact (Value_ne_nul_of_lt hnn (by omega)) hVn
      have hic := @InsertCodeBlock_chain st BKind.none st.it.pos hc hle (by rw [if_pos rfl])
      refine ⟨(InsertCodeBlock st BKind.none st.it.pos).blocksR, he.symm, hic.1, ?_⟩
      rw [hic.2]
      exact hpe
    · rcases hst : lexStep chars st with e | st2
      · rw [hst] at hok
        exact absurd hok (by simp)
      · rw [hst] at hok
        dsimp only at hok
        have hV : Value chars st.it ≠ nulC := by assumption
        exact ih st2 blocks (lexStep_chain hnn hV hinv hst) hok

theorem chainOKB_beg_le_fin : ∀ {blR : List Block}, chainOKB blR = true →
    ∀ b ∈ blR, b.beg ≤ b.fin := by
  intro blR
  induction blR with
  | nil =>
    intro _ b hb
    exact absurd hb (by simp)
  | cons x rest ih =>
    intro hc b hb
    have h1 := chainOKB_cons_iff.mp hc
    rcases List.mem_cons.mp hb with h | h
    · subst h
      exact h1.1
    · exact ih h1.2.2 b h

theorem chainOKB_chain : ∀ {blR : List Block}, chainOKB blR = true →
    List.Chain' (fun a b : Block => b.fin + 1 = a.beg) blR := by
  intro blR
  induction blR with
  | nil =>
    intro _
    exact List.chain'_nil
  | cons x rest ih =>
    intro hc
    have h1 := chainOKB_cons_iff.mp hc
    cases rest with
    | nil => exact List.chain'_singleton _
    | cons y rest2 =>
      exact List.chain'_cons.mpr ⟨h1.2.1.symm, ih h1.2.2⟩

theorem chainOKB_flatten {chars : List Char} : ∀ {blR : List Block}, chainOKB blR = true →
    (blR.reverse.map (sliceB chars)).flatten = chars.take (chainTo blR) := by
  intro blR
  induction blR with
  | nil =>
    intro _
    rfl
  | cons b rest ih =>
    intro hc
    have h1 := chainOKB_cons_iff.mp hc
    rw [List.reverse_cons, List.map_append, List.flatten_append]
    rw [ih h1.2.2]
    simp only [List.map_cons, List.map_nil, List.flatten_cons, List.flatten_nil,
      List.append_nil]
    rw [← h1.2.1]
    unfold sliceB
    rw [← List.take_add]
    show chars.take (b.beg + (b.fin + 1 - b.beg)) = chars.take (chainTo (b :: rest))
    have hbf := h1.1
    congr 1
    show b.beg + (b.fin + 1 - b.beg) = b.fin + 1
    omega

theorem chainOKB_getLast_beg : ∀ {blR : List Block}, chainOKB blR = true →
    ∀ b, blR.getLast? = some b → b.beg = 0 := by
  intro blR
  induction blR with
  | nil =>
    intro _ b hb
    simp at hb
  | cons x rest ih =>
    intro hc b hb
    have h1 := chainOKB_cons_iff.mp hc
    cases rest with
    | nil =>
      simp only [List.getLast?_singleton] at hb
      injection hb with h
      subst h
      exact h1.2.1
    | cons y rest2 =>
      rw [List.getLast?_cons_cons] at hb
      exact ih h1.2.2 b hb

theorem chainOKB_head_fin : ∀ {blR : List Block} (b : Block), blR.head? = some b →
    b.fin + 1 = chainTo blR := by
  intro blR b hb
  cases blR with
  | nil => simp at hb
  | cons x rest =>
    simp only [List.head?_cons] at hb
    injection hb with h
    subst h
    rfl

/-- C2: for every NUL-free buffer the lexer accepts, the emitted block
sequence covers the buffer exactly: concatenating the blocks' byte ranges in
order reproduces the input byte-for-byte, every block is a non-empty inclusive
range, consecutive blocks are contiguous (each block starts one byte past the
previous one's end, so ranges are non-overlapping and `begin`s strictly
increase), the first block starts at byte 0 and the last block ends at the
final byte — all inter-block gaps, including the trailing one flushed after
the main loop, having been emitted as blocks. -/
theorem c2_lexer_coverage {chars : List Char} {blocks : List Block}
    (hnn : nulC ∉ chars) (hok : parse chars = LexResult.ok blocks) :
    (blocks.map (sliceB chars)).flatten = chars ∧
    (∀ b ∈ blocks, b.beg ≤ b.fin) ∧
    List.Chain' (fun a b : Block => a.fin + 1 = b.beg) blocks ∧
    (∀ b, blocks.head? = some b → b.beg = 0) ∧
    (∀ b, blocks.getLast? = some b → b.fin + 1 = chars.length) := by
  obtain ⟨blR, hrev, hc, hto⟩ := parseLoop_chain hnn (chars.length + 1) initPState blocks
    ⟨rfl, Nat.le_refl 0, Nat.zero_le _⟩ hok
  subst hrev
  refine ⟨?_, ?_, ?_, ?_, ?_⟩
  · rw [chainOKB_flatten hc, hto, List.take_length]
  · intro b hb
    exact chainOKB_beg_le_fin hc b (List.mem_reverse.mp hb)
  · rw [List.chain'_reverse]
    exact chainOKB_chain hc
  · intro b hb
    rw [List.head?_reverse] at hb
    exact chainOKB_getLast_beg hc b hb
  · intro b hb
    rw [List.getLast?_reverse] at hb
    rw [← hto]
    exact chainOKB_head_fin b hb

theorem c2_lexer_coverage_witness :
    nulC ∉ "a;".data ∧
    parse "a;".data = LexResult.ok
      [Block.mk BKind.identifier 0 0, Block.mk BKind.statement_terminator 1 1] ∧
    (([Block.mk BKind.identifier 0 0, Block.mk BKind.statement_terminator 1 1].map
        (sliceB "a;".data)).flatten = "a;".data ∧
      (∀ b ∈ [Block.mk BKind.identifier 0 0, Block.mk BKind.statement_terminator 1 1],
        b.beg ≤ b.fin) ∧
      List.Chain' (fun a b : Block => a.fin + 1 = b.beg)
        [Block.mk BKind.identifier 0 0, Block.mk BKind.statement_terminator 1 1] ∧
      (∀ b, [Block.mk BKind.identifier 0 0,
          Block.mk BKind.statement_terminator 1 1].head? = some b → b.beg = 0) ∧
      (∀ b, [Block.mk BKind.identifier 0 0,
          Block.mk BKind.statement_terminator 1 1].getLast? = some b →
        b.fin + 1 = "a;".data.length)) :=
  ⟨by decide, by decide, c2_lexer_coverage (by decide) (by decide)⟩

end Cppx
